import Mathlib

/-!
Verification development for the logmerger merge engine.

The definitions below are a shallow embedding of the merge-engine code:

* `src/src/logmerger/multiline_log_handler.py` — `WindowedSort`,
  `NewLogLineDetector`, `MultilineLogCollapser`;
* `src/log_merger/merging.py` — `Merger` (heapq.merge + groupby);
* `src/src/logmerger/logmerger.py` — `LogMergerApplication._merge_log_file_lines`
  and its row-dict construction;
* `src/log_merger/timestamp_wrapper.py` — `TimestampedLineTransformer`,
  `strip_escape_sequences`, the `YMDHMS` and `BDHMS` matcher subclasses and
  `make_transformer_from_sample_line`.

Timestamps (Python `datetime` values) are modelled as `Nat`: `datetime.min`
becomes `0`, and concrete parsed datetimes are encoded through `encodeDT`,
a strictly monotone encoding of the (year, month, day, hour, minute, second)
tuple, so that comparisons between encoded datetimes agree with `datetime`
comparisons.  Python iterators are modelled as lists consumed front to back;
loops whose recursion is not structural take an explicit fuel argument that
the top-level wrappers instantiate with a provably sufficient value, keeping
every definition kernel-computable.
-/

/-- Timestamps: a `datetime` value, encoded as a natural number. -/
abbrev Timestamp := Nat

/-- Model of `datetime.min`, the initial value of `NewLogLineDetector._cur_dt`
and the sentinel compared against in the row-dict construction
(`ts > datetime.min`). -/
def dtMin : Timestamp := 0

/-- A transformed log line, as produced by `TimestampedLineTransformer.__call__`:
the optional leading timestamp and the remaining text. -/
abbrev LogLine := Option Timestamp × String

/-- A group handed to `WindowedSort`: the tag assigned by `NewLogLineDetector`
together with the lines of the `itertools.groupby` run carrying that tag. -/
abbrev LineGroup := Timestamp × List LogLine

/-- A collapsed log entry emitted by `MultilineLogCollapser.__call__`:
timestamp plus the newline-joined body. -/
abbrev Entry := Timestamp × String

/-- A labeled entry, as produced by `label(fname)` in `logmerger.py`:
the source file name paired with the entry. -/
abbrev LabeledEntry := String × Entry

/-- Model of `NewLogLineDetector.__call__` composed with `itertools.groupby`
(the expression `groupby(log_seq, key=self._newlogline_detector)` in
`MultilineLogCollapser.__call__`).  The detector keeps the timestamp of the
most recent timestamped line in `_cur_dt` (initially `datetime.min`) and
returns it as the key of every line; `groupby` bundles consecutive lines
sharing a key into one group.  `cur` is the current value of `_cur_dt`. -/
def groupByDetector (cur : Timestamp) : List LogLine → List LineGroup
  | [] => []
  | (dt, s) :: rest =>
    let k := dt.getD cur
    match groupByDetector k rest with
    | [] => [(k, [(dt, s)])]
    | (k2, ys) :: gs =>
      if k = k2 then (k, (dt, s) :: ys) :: gs
      else (k, [(dt, s)]) :: (k2, ys) :: gs

/-- Stable insertion of a group into a list sorted by key, placing the new
element before any element of equal or larger key.  Together with
`sortGroups` this models the stable `list.sort(key=self.key_function)`
performed in `WindowedSort.__init__` (a stable sort by key is unique, so any
faithful stable sort gives the same list as Python's Timsort). -/
def insSorted (x : LineGroup) : List LineGroup → List LineGroup
  | [] => [x]
  | g :: gs => if g.1 < x.1 then g :: insSorted x gs else x :: g :: gs

/-- Stable sort by key of the initial window, modelling `temp.sort(key=...)`
in `WindowedSort.__init__`. -/
def sortGroups : List LineGroup → List LineGroup
  | [] => []
  | x :: xs => insSorted x (sortGroups xs)

/-- Worker for `mergeAdjacent`: `g` is the group currently being accumulated. -/
def mergeAdjAux (g : LineGroup) : List LineGroup → List LineGroup
  | [] => [g]
  | g2 :: gs =>
    if g.1 = g2.1 then mergeAdjAux (g.1, g.2 ++ g2.2) gs
    else g :: mergeAdjAux g2 gs

/-- Model of the `groupby(temp, key=...)` loop in `WindowedSort.__init__`
that populates `lookahead_buffer`: adjacent groups with equal keys are fused,
their line lists concatenated by `reduce(add, values_to_merge)`. -/
def mergeAdjacent : List LineGroup → List LineGroup
  | [] => []
  | g :: gs => mergeAdjAux g gs

/-- Model of the `bisect_left` insert-or-merge of `WindowedSort.__next__` on
the sorted `lookahead_buffer`: walk to the leftmost position whose key is
`>= k`; on an exact key match extend that group's line list
(`matching_log_list.extend(new_log_items)`), otherwise insert the new group
at that position. -/
def wsInsert (k : Timestamp) (items : List LogLine) : List LineGroup → List LineGroup
  | [] => [(k, items)]
  | g :: gs =>
    if g.1 < k then g :: wsInsert k items gs
    else if g.1 = k then (g.1, g.2 ++ items) :: gs
    else (k, items) :: g :: gs

/-- One refill step of `WindowedSort.__next__` reading `new_line = (k, items)`:
if `last_line_key` is `None` it becomes `k`; when `k <= last_line_key` the
group is merged/inserted by `wsInsert`, otherwise it is appended at the end
and `last_line_key` is updated.  Returns the new buffer and `last_line_key`. -/
def wsStep (buf : List LineGroup) (last : Option Timestamp) (x : LineGroup) :
    List LineGroup × Option Timestamp :=
  let l := last.getD x.1
  if x.1 ≤ l then (wsInsert x.1 x.2 buf, some l)
  else (buf ++ [x], some x.1)

/-- Iteration of `WindowedSort.__next__`: while not `seq_consumed` read one
group from the input (flagging consumption at end of input), then pop and
emit the left-most element of `lookahead_buffer`; stop when the buffer is
empty.  `fuel` bounds the number of emissions; `windowedSort` supplies
`buf.length + rest.length`, which is an upper bound on the number of groups
ever present, so the fuel never runs out on the wrapper's call. -/
def wsRun : Nat → List LineGroup → Option Timestamp → List LineGroup → Bool → List LineGroup
  | 0, _, _, _, _ => []
  | _ + 1, [], _, [], _ => []
  | fuel + 1, g :: bs, last, [], consumed => g :: wsRun fuel bs last [] consumed
  | fuel + 1, buf, last, x :: r, consumed =>
    if consumed then
      match buf with
      | [] => []
      | g :: bs => g :: wsRun fuel bs last (x :: r) consumed
    else
      match wsStep buf last x with
      | ([], _) => []
      | (g :: bs, last2) => g :: wsRun fuel bs last2 r false

/-- Model of the class `WindowedSort` in
`src/src/logmerger/multiline_log_handler.py`, consumed to exhaustion: the
first `window` groups are read, stably sorted by key and fused by
`mergeAdjacent`; `last_line_key` is the key of the last (largest) buffered
group; `seq_consumed` is set when fewer than `window` groups remain after
fusing, exactly as `len(self.lookahead_buffer) < window` does. -/
def windowedSort (window : Nat) (seq : List LineGroup) : List LineGroup :=
  let buf := mergeAdjacent (sortGroups (seq.take window))
  let rest := seq.drop window
  wsRun (buf.length + rest.length) buf ((buf.getLast?).map Prod.fst) rest
    (decide (buf.length < window))

/-- Result of the `time_filter` callable inside `MultilineLogCollapser.__call__`:
`keep` and `skip` are the boolean results, `stop` models the
`StopIteration` raised by `_time_clip_early_exit` and caught by the
`except StopIteration: break`. -/
inductive TFR where
  | keep : TFR
  | skip : TFR
  | stop : TFR
deriving DecidableEq

/-- Body-assembly loop of `MultilineLogCollapser.__call__` over the groups
emitted by `WindowedSort`: groups passing the time filter are emitted with
their line texts joined by newline; when `include_non_timestamped_lines` is
false the untimestamped lines are filtered out of the group first (after
grouping); a `stop` from the filter breaks the loop. -/
def collapseGroups (tf : Timestamp → TFR) (includeNonTs : Bool) :
    List LineGroup → List Entry
  | [] => []
  | (ts, lines) :: gs =>
    match tf ts with
    | TFR.keep =>
      let lines2 := if includeNonTs then lines else lines.filter (fun l => l.1.isSome)
      (ts, String.intercalate "\n" (lines2.map Prod.snd)) :: collapseGroups tf includeNonTs gs
    | TFR.skip => collapseGroups tf includeNonTs gs
    | TFR.stop => []

/-- Model of `MultilineLogCollapser.__call__`: group the transformed lines by
the `NewLogLineDetector` tag, reorder/fuse them through `WindowedSort` with
`window=40`, then assemble the bodies. -/
def multilineLogCollapser (tf : Timestamp → TFR) (includeNonTs : Bool)
    (logSeq : List LogLine) : List Entry :=
  collapseGroups tf includeNonTs (windowedSort 40 (groupByDetector dtMin logSeq))

/-- Time filter corresponding to the default configuration
(`config.start = config.end = None`, hence `time_filter` is
`lambda x: True`). -/
def keepAll : Timestamp → TFR := fun _ => TFR.keep

/-- Key function handed to the `Merger` in `_merge_log_file_lines`:
`lambda log_data: log_data[1][0]`, the timestamp of a labeled entry. -/
def entryKey (e : LabeledEntry) : Timestamp := e.2.1

/-- Selection step of `heapq.merge`: among the current heads of the input
iterators, pick the one with the smallest key, breaking ties in favour of the
earliest iterator (the heap orders entries by `(key, iterator-order)`), and
advance that iterator.  Exhausted iterators contribute nothing. -/
def pickMin (key : LabeledEntry → Timestamp) :
    List (List LabeledEntry) → Option (LabeledEntry × List (List LabeledEntry))
  | [] => none
  | [] :: rest =>
    match pickMin key rest with
    | none => none
    | some (y, rest2) => some (y, [] :: rest2)
  | (x :: xs) :: rest =>
    match pickMin key rest with
    | none => some (x, xs :: rest)
    | some (y, rest2) =>
      if key y < key x then some (y, (x :: xs) :: rest2)
      else some (x, xs :: rest)

/-- Emission loop of `heapq.merge(*seq_list, key=key_function)`: repeatedly
emit the minimal current head.  `fuel` bounds the number of emissions;
`heapMerge` supplies the total number of elements, which is exact. -/
def kMerge (key : LabeledEntry → Timestamp) : Nat → List (List LabeledEntry) → List LabeledEntry
  | 0, _ => []
  | fuel + 1, seqs =>
    match pickMin key seqs with
    | none => []
    | some (x, seqs2) => x :: kMerge key fuel seqs2

/-- Total number of elements across all input iterators. -/
def totalLen (seqs : List (List LabeledEntry)) : Nat :=
  (seqs.map List.length).sum

/-- Model of `heapq.merge(*self.seq_list, key=key_function)` inside the
`Merger` class of `src/log_merger/merging.py`. -/
def heapMerge (key : LabeledEntry → Timestamp) (seqs : List (List LabeledEntry)) :
    List LabeledEntry :=
  kMerge key (totalLen seqs) seqs

/-- Model of `itertools.groupby(..., key=key_function)` over an already
materialised stream: consecutive elements with equal keys are bundled into
one `(key, items)` group.  Used both by the `Merger` (grouping the heap
output by timestamp) and, through `groupByDetector`, by the collapser. -/
def groupRuns (key : LabeledEntry → Timestamp) :
    List LabeledEntry → List (Timestamp × List LabeledEntry)
  | [] => []
  | x :: xs =>
    match groupRuns key xs with
    | [] => [(key x, [x])]
    | (k, ys) :: gs =>
      if key x = k then (k, x :: ys) :: gs
      else (key x, [x]) :: (k, ys) :: gs

/-- Formatted timestamp of a row dict, modelling
`ts.strftime("%Y-%m-%d %H:%M:%S.%f")[:23] if ts > datetime.min else ""`
from the row-dict construction in `_merge_log_file_lines`.  The decimal
rendering of the encoded datetime stands in for the `strftime` text; the
sentinel `datetime.min` group is rendered as the empty string exactly as in
the source. -/
def formatTimestamp (ts : Timestamp) : String :=
  if dtMin < ts then toString ts else ""

/-- One output row of the merge, modelling the per-timestamp dict built by
`_merge_log_file_lines` (with `config.line_numbers` off): the formatted
timestamp plus one column per file name.  Columns are an association list in
dict insertion order. -/
structure MergedRecord where
  timestamp : String
  columns : List (String × String)
deriving DecidableEq, Repr

/-- Python dict assignment `d[k] = v`: replace the value of an existing key
in place, otherwise append the new key at the end. -/
def dictSet : List (String × String) → String → String → List (String × String)
  | [], k, v => [(k, v)]
  | (k2, v2) :: rest, k, v =>
    if k2 = k then (k, v) :: rest else (k2, v2) :: dictSet rest k v

/-- Dict lookup: the value stored for `k`, if any. -/
def lookupA : List (String × String) → String → Option String
  | [], _ => none
  | (k2, v2) :: rest, k => if k2 = k then some v2 else lookupA rest k

/-- Row-dict construction of `_merge_log_file_lines` for one merged group:
start from a column per file name holding `""` (`{}.fromkeys(file_names, "")`)
plus the formatted timestamp, then overwrite each labeled entry's column with
its body (`line_dict[fname] = line`). -/
def buildRecord (fileNames : List String) (ts : Timestamp)
    (items : List LabeledEntry) : MergedRecord :=
  { timestamp := formatTimestamp ts
    columns := items.foldl (fun cols e => dictSet cols e.1 e.2.2)
      (fileNames.map (fun f => (f, ""))) }

/-- Column of a record for a given file name. -/
def MergedRecord.col (r : MergedRecord) (f : String) : Option String :=
  lookupA r.columns f

/-- The labeled, collapsed per-source streams fed to the `Merger`
(`log_file_line_iters` in `_merge_log_file_lines`), for the default
configuration without time clipping. -/
def labeledStreams (fileNames : List String) (srcs : List (List LogLine))
    (includeNonTs : Bool) : List (List LabeledEntry) :=
  (fileNames.zip srcs).map
    (fun p => (multilineLogCollapser keepAll includeNonTs p.2).map (fun e => (p.1, e)))

/-- The merged, timestamp-grouped stream produced by the `Merger`
(`groupby(heapq.merge(...), key=...)`) over the labeled per-source streams. -/
def mergedGroups (fileNames : List String) (srcs : List (List LogLine))
    (includeNonTs : Bool) : List (Timestamp × List LabeledEntry) :=
  groupRuns entryKey (heapMerge entryKey (labeledStreams fileNames srcs includeNonTs))

/-- Model of `LogMergerApplication._merge_log_file_lines` from the transformed
lines onward (default configuration: no time window, no line numbers): one
`MergedRecord` per merged timestamp group. -/
def mergeLogFileLines (fileNames : List String) (srcs : List (List LogLine))
    (includeNonTs : Bool) : List MergedRecord :=
  (mergedGroups fileNames srcs includeNonTs).map (fun g => buildRecord fileNames g.1 g.2)

/-- Adjacency check used to state the ordering claims: every key is at most
its successor. -/
def adjacentLE : List Nat → Bool
  | [] => true
  | [_] => true
  | a :: b :: rest => decide (a ≤ b) && adjacentLE (b :: rest)

/-- Scanner for the body of an SGR escape sequence after `ESC [`, i.e. the
regex `\d+(;\d+)*m` of `strip_escape_sequences`; `seen` records whether the
current digit run is nonempty.  Returns the remaining characters after the
closing `m` when the sequence matches. -/
def sgrScan : Bool → List Char → Option (List Char)
  | _, [] => none
  | seen, c :: cs =>
    if c.isDigit then sgrScan true cs
    else if c = 'm' then (if seen then some cs else none)
    else if c = ';' then (if seen then sgrScan false cs else none)
    else none

/-- Character-level worker for `strip_escape_sequences`: repeatedly delete
every occurrence of `ESC [ \d+(;\d+)*m`, scanning left to right as
`re.sub` does.  `fuel` is instantiated with the input length, which
suffices because every step consumes at least one character. -/
def stripEscList : Nat → List Char → List Char
  | 0, cs => cs
  | _ + 1, [] => []
  | fuel + 1, c :: cs =>
    if c = '\x1b' then
      match cs with
      | '[' :: cs2 =>
        match sgrScan false cs2 with
        | some rest => stripEscList fuel rest
        | none => c :: stripEscList fuel cs
      | _ => c :: stripEscList fuel cs
    else c :: stripEscList fuel cs

/-- Model of `strip_escape_sequences` from `timestamp_wrapper.py`:
`re.compile("\x1b" + r"\[\d+(;\d+)*m").sub("", s)`. -/
def strip_escape_sequences (s : String) : String :=
  String.mk (stripEscList s.data.length s.data)

/-- Model of a bound `TimestampedLineTransformer`: `tmatch` is
`self._re_pattern_match` returning the text of the timestamp capture group
(`m[self.timestamp_match_group]`) on success; `tsub` is
`self._re_pattern_sub(self.sub_repl, obj)` removing the matched leading
text; `str_to_time` is `self.str_to_time` on the captured text, with the
current clock year as an explicit first argument (only `BDHMS` reads it),
returning `none` where the Python code raises `ValueError`. -/
structure Transformer where
  tmatch : String → Option String
  tsub : String → String
  str_to_time : Nat → String → Option Timestamp

/-- Model of `TimestampedLineTransformer.__call__`: on a pattern match, parse
the captured timestamp and pair it with the trimmed, escape-stripped text —
a parse failure propagates as an error, since the source has no handler
around `self.str_to_time`; on no match, return `None` and the original line
with a space prepended (`f" {obj}"`), escape-stripped. -/
def transformerCall (t : Transformer) (year : Nat) (obj : String) : Except String LogLine :=
  match t.tmatch obj with
  | some cap =>
    match t.str_to_time year cap with
    | some dt => Except.ok (some dt, strip_escape_sequences (t.tsub obj))
    | none => Except.error cap
  | none => Except.ok (none, strip_escape_sequences (" " ++ obj))

/-- Strictly monotone encoding of a `datetime(y, mo, d, h, mi, s)` value as a
natural number (months < 13, days < 32, hours < 24, minutes/seconds < 60),
so that encoded comparisons agree with `datetime` comparisons. -/
def encodeDT (y mo d h mi s : Nat) : Timestamp :=
  ((((y * 13 + mo) * 32 + d) * 24 + h) * 60 + mi) * 60 + s

/-- Read exactly `n` ASCII digits, accumulating their value onto `acc`. -/
def readDigits : Nat → Nat → List Char → Option (Nat × List Char)
  | 0, acc, cs => some (acc, cs)
  | _ + 1, _, [] => none
  | n + 1, acc, c :: cs =>
    if c.isDigit then readDigits n (acc * 10 + (c.toNat - 48)) cs else none

/-- Consume one expected literal character. -/
def expectChar (ch : Char) : List Char → Option (List Char)
  | [] => none
  | c :: cs => if c = ch then some cs else none

/-- Consume one regex `\s` character. -/
def expectWS : List Char → Option (List Char)
  | [] => none
  | c :: cs => if c.isWhitespace then some cs else none

/-- Shape test for the `YMDHMS` pattern
`((\d{4}-\d{2}-\d{2} \d{2}:\d{2}:\d{2})\s)` anchored at the start of the
line (`re.match`): digits and separators only, no value validation, exactly
like the regex.  Returns the characters following the full match. -/
def ymdhmsShape (cs : List Char) : Option (List Char) := do
  let (_, r1) ← readDigits 4 0 cs
  let r2 ← expectChar '-' r1
  let (_, r3) ← readDigits 2 0 r2
  let r4 ← expectChar '-' r3
  let (_, r5) ← readDigits 2 0 r4
  let r6 ← expectChar ' ' r5
  let (_, r7) ← readDigits 2 0 r6
  let r8 ← expectChar ':' r7
  let (_, r9) ← readDigits 2 0 r8
  let r10 ← expectChar ':' r9
  let (_, r11) ← readDigits 2 0 r10
  expectWS r11

/-- Number of days in a month, as validated by the `datetime` constructor. -/
def daysInMonth (y mo : Nat) : Nat :=
  if mo = 2 then (if (y % 4 = 0 && y % 100 != 0) || y % 400 = 0 then 29 else 28)
  else if mo = 4 || mo = 6 || mo = 9 || mo = 11 then 30 else 31

/-- Range validation performed by `datetime.strptime` / the `datetime`
constructor: a `ValueError` is raised exactly when this is false. -/
def validDT (y mo d h mi s : Nat) : Bool :=
  decide (1 ≤ y) && decide (1 ≤ mo) && decide (mo ≤ 12) && decide (1 ≤ d) &&
    decide (d ≤ daysInMonth y mo) && decide (h ≤ 23) && decide (mi ≤ 59) && decide (s ≤ 59)

/-- Model of `datetime.strptime(s, "%Y-%m-%d %H:%M:%S")` on the captured
text: re-parse the six fields and validate their ranges; `none` models the
`ValueError` on an impossible date. -/
def strptimeYMDHMS (s : String) : Option Timestamp := do
  let (y, r1) ← readDigits 4 0 s.data
  let r2 ← expectChar '-' r1
  let (mo, r3) ← readDigits 2 0 r2
  let r4 ← expectChar '-' r3
  let (d, r5) ← readDigits 2 0 r4
  let r6 ← expectChar ' ' r5
  let (h, r7) ← readDigits 2 0 r6
  let r8 ← expectChar ':' r7
  let (mi, r9) ← readDigits 2 0 r8
  let r10 ← expectChar ':' r9
  let (sec, r11) ← readDigits 2 0 r10
  match r11 with
  | [] => if validDT y mo d h mi sec then some (encodeDT y mo d h mi sec) else none
  | _ => none

/-- Model of the `YMDHMS` transformer subclass (pattern
`((\d{4}-\d{2}-\d{2} \d{2}:\d{2}:\d{2})\s)`, strptime format
`"%Y-%m-%d %H:%M:%S"`): the capture group is the first 19 characters, the
substitution removes the 20-character full match, and parsing ignores the
clock year. -/
def YMDHMS : Transformer where
  tmatch := fun s =>
    match ymdhmsShape s.data with
    | some _ => some (String.mk (s.data.take 19))
    | none => none
  tsub := fun s =>
    match ymdhmsShape s.data with
    | some _ => String.mk (s.data.drop 20)
    | none => s
  str_to_time := fun _ cap => strptimeYMDHMS cap

/-- Month number of a capitalised month abbreviation, as accepted by the
`%b` directive on captures of the `BDHMS` pattern (whose shape
`[JFMASOND][a-z]{2}` admits only capitalised forms). -/
def monthNum : String → Option Nat
  | "Jan" => some 1
  | "Feb" => some 2
  | "Mar" => some 3
  | "Apr" => some 4
  | "May" => some 5
  | "Jun" => some 6
  | "Jul" => some 7
  | "Aug" => some 8
  | "Sep" => some 9
  | "Oct" => some 10
  | "Nov" => some 11
  | "Dec" => some 12
  | _ => none

/-- Shape test for the `BDHMS` pattern
`(([JFMASOND][a-z]{2}\s(\s|\d)\d \d{2}:\d{2}:\d{2})\s)` anchored at the
start of the line.  The match is always 16 characters (15 captured plus the
trailing whitespace); returns the characters following it. -/
def bdhmsShape (cs : List Char) : Option (List Char) :=
  match cs with
  | c0 :: c1 :: c2 :: c3 :: c4 :: c5 :: c6 :: h1 :: h2 :: p1 :: m1 :: m2 :: p2 :: s1 :: s2 :: w :: rest =>
    if (c0 ∈ ['J', 'F', 'M', 'A', 'S', 'O', 'N', 'D']) && c1.isLower && c2.isLower &&
        c3.isWhitespace && (c4 = ' ' || c4.isDigit) && c5.isDigit && c6 = ' ' &&
        h1.isDigit && h2.isDigit && p1 = ':' && m1.isDigit && m2.isDigit && p2 = ':' &&
        s1.isDigit && s2.isDigit && w.isWhitespace then
      some rest
    else none
  | _ => none

/-- Model of `datetime.strptime(cap, "%b %d %H:%M:%S")` on a 15-character
`BDHMS` capture, followed by `dt.replace(year=year)`: the fields are
validated against the strptime default year 1900 (so `Feb 29` always fails)
and then encoded with the supplied clock year. -/
def bdhmsStrToTime (year : Nat) (cap : String) : Option Timestamp :=
  match cap.data with
  | c0 :: c1 :: c2 :: _ :: c4 :: c5 :: _ :: h1 :: h2 :: _ :: m1 :: m2 :: _ :: s1 :: s2 :: [] =>
    match monthNum (String.mk [c0, c1, c2]) with
    | none => none
    | some mo =>
      let d := if c4.isDigit then (c4.toNat - 48) * 10 + (c5.toNat - 48) else c5.toNat - 48
      let h := (h1.toNat - 48) * 10 + (h2.toNat - 48)
      let mi := (m1.toNat - 48) * 10 + (m2.toNat - 48)
      let sec := (s1.toNat - 48) * 10 + (s2.toNat - 48)
      if validDT 1900 mo d h mi sec then some (encodeDT year mo d h mi sec) else none
  | _ => none

/-- Model of the `BDHMS` syslog transformer subclass.  Its `__call__`
replaces the parsed year with the year of the file's creation time when
`add_file_info` was called; `_merge_log_file_lines` builds transformers via
`make_transformer_from_sample_line` and never attaches file info, so
`self.file_stat is None` and the year is `datetime.now().year` — the `year`
argument of `str_to_time`. -/
def BDHMS : Transformer where
  tmatch := fun s =>
    match bdhmsShape s.data with
    | some _ => some (String.mk (s.data.take 15))
    | none => none
  tsub := fun s =>
    match bdhmsShape s.data with
    | some _ => String.mk (s.data.drop 16)
    | none => s
  str_to_time := bdhmsStrToTime

/-- Transformer registry used for concrete runs: the
`TimestampedLineTransformer.__subclasses__()` list restricted to the two
matcher classes the claims exercise, in definition (hence detection) order:
`YMDHMS` precedes `BDHMS`. -/
def sampleRegistry : List Transformer := [YMDHMS, BDHMS]

/-- Model of `TimestampedLineTransformer.make_transformer_from_sample_line`:
return the first registered transformer whose pattern matches the sample
line, or raise `ValueError(f"no match for any timestamp pattern in {s!r}")`.
The error message embeds the sample line (modelling Python `repr` by single
quotes); the source name is not an argument and cannot appear in it. -/
def make_transformer_from_sample_line (registry : List Transformer) (s : String) :
    Except String Transformer :=
  match registry.find? (fun t => (t.tmatch s).isSome) with
  | some t => Except.ok t
  | none => Except.error ("no match for any timestamp pattern in '" ++ s ++ "'")

/-- Model of `str.rstrip` (trailing-whitespace removal) applied to each line
before the transformer, as in `map(xformer, map(str.rstrip, reader))`. -/
def rstrip (s : String) : String :=
  String.mk ((s.data.reverse.dropWhile Char.isWhitespace).reverse)

/-- Per-source preparation of `_merge_log_file_lines`: detect the format from
the first (raw) line — an empty file gets a do-nothing transformer and
contributes no lines — then transform every rstripped line.  An undetected
format or a mid-stream parse failure propagates as an error, as the source
only handles `StopIteration`. -/
def prepSource (registry : List Transformer) (year : Nat) (lines : List String) :
    Except String (List LogLine) :=
  match lines with
  | [] => Except.ok []
  | s :: _ => do
    let t ← make_transformer_from_sample_line registry s
    lines.mapM (fun l => transformerCall t year (rstrip l))

/-- End-to-end model of `_merge_log_file_lines` for the default
configuration: detect and transform each source, then collapse, merge and
assemble records.  `year` is the current clock year visible to `BDHMS`. -/
def runPipeline (registry : List Transformer) (year : Nat) (fileNames : List String)
    (srcs : List (List String)) : Except String (List MergedRecord) := do
  let tls ← srcs.mapM (prepSource registry year)
  Except.ok (mergeLogFileLines fileNames tls true)

/-- Singleton line used by the inversion-family inputs of the windowed-sort
claims. -/
def grpLine (k : Timestamp) : LogLine := (some k, "x")

/-- A one-line group with key `k`, as produced by the detector for a single
timestamped line. -/
def grp (k : Timestamp) : LineGroup := (k, [grpLine k])

/-- The groups `grp a, grp (a+1), ..., grp (a+n-1)` with strictly ascending
keys. -/
def ascGrps (a n : Nat) : List LineGroup := (List.range' a n).map grp

/-- Heads with the sentinel key `datetime.min` across the labeled streams, in
stream order: the entries a zero-key-first merge emits before any
positive-key entry. -/
def zeroHeads (seqs : List (List LabeledEntry)) : List LabeledEntry :=
  seqs.filterMap (fun s =>
    match s with
    | [] => none
    | e :: _ => if entryKey e = 0 then some e else none)

/-- Shape of a collapsed, labeled per-source stream whose real timestamps are
positive: empty, all-positive, or one sentinel-key head followed by an
all-positive tail. -/
def OkStream (s : List LabeledEntry) : Prop :=
  s = [] ∨ (∀ e ∈ s, 0 < entryKey e) ∨
    (∃ e t, s = e :: t ∧ entryKey e = 0 ∧ ∀ e2 ∈ t, 0 < entryKey e2)

/-- Sources whose parsed timestamps are all positive, i.e. later than the
sentinel `datetime.min` (true of every `datetime.strptime` result except the
degenerate `0001-01-01 00:00:00`). -/
def PosSrc (src : List LogLine) : Prop :=
  ∀ l ∈ src, ∀ t, l.1 = some t → 0 < t

/-- Body of the sentinel group of a source: the newline-join of the texts of
the initial run of untimestamped lines. -/
def sentinelBody (src : List LogLine) : String :=
  String.intercalate "\n" ((src.takeWhile (fun l => l.1.isNone)).map Prod.snd)

/-- Naive substring test on character lists, used to state that an error
message does not mention a given name. -/
def listContainsSub (needle : List Char) : List Char → Bool
  | [] => needle.isEmpty
  | c :: cs => needle.isPrefixOf (c :: cs) || listContainsSub needle cs

/-- Decidable equality for `Except` results, used to evaluate concrete runs. -/
instance instDecEqExcept {α β : Type} [DecidableEq α] [DecidableEq β] :
    DecidableEq (Except α β) := fun x y =>
  match x, y with
  | Except.ok a, Except.ok b =>
    if h : a = b then isTrue (by rw [h]) else isFalse (fun hc => h (Except.ok.inj hc))
  | Except.error a, Except.error b =>
    if h : a = b then isTrue (by rw [h]) else isFalse (fun hc => h (Except.error.inj hc))
  | Except.ok _, Except.error _ => isFalse (fun hc => Except.noConfusion hc)
  | Except.error _, Except.ok _ => isFalse (fun hc => Except.noConfusion hc)

/-- Looking up the key just stored by `dictSet` returns the stored value. -/
theorem dictSet_lookup_self (cols : List (String × String)) (k v : String) :
    lookupA (dictSet cols k v) k = some v := by
  induction cols with
  | nil => simp [dictSet, lookupA]
  | cons c rest ih =>
    by_cases h : c.1 = k
    · simp [dictSet, lookupA, h]
    · simp [dictSet, lookupA, h, ih]

/-- Storing under one key leaves the lookup of any other key unchanged. -/
theorem dictSet_lookup_ne (cols : List (String × String)) (k v f : String)
    (h : k ≠ f) : lookupA (dictSet cols k v) f = lookupA cols f := by
  induction cols with
  | nil => simp [dictSet, lookupA, h]
  | cons c rest ih =>
    by_cases hc : c.1 = k
    · subst hc
      simp [dictSet, lookupA, h]
    · simp [dictSet, lookupA, hc, ih]

/-- Lookup after the overwrite loop of `buildRecord`: the column of `f` holds
the body of the last entry labeled `f`, or the initial value when no entry is
labeled `f`. -/
theorem foldl_dictSet_lookup (items : List LabeledEntry)
    (cols : List (String × String)) (f : String) :
    lookupA (items.foldl (fun c e => dictSet c e.1 e.2.2) cols) f =
      (match (items.filter (fun e => e.1 == f)).getLast? with
       | some e => some e.2.2
       | none => lookupA cols f) := by
  induction items generalizing cols with
  | nil => simp
  | cons e rest ih =>
    rw [List.foldl_cons, ih]
    by_cases h : e.1 = f
    · rw [List.filter_cons_of_pos (by simpa using h)]
      cases hf : rest.filter (fun e => e.1 == f) with
      | nil =>
        subst h
        simpa using dictSet_lookup_self cols e.1 e.2.2
      | cons y ys =>
        rw [List.getLast?_cons_cons]
        cases hg : (y :: ys).getLast? with
        | some x => rfl
        | none => simp [List.getLast?_eq_none_iff] at hg
    · rw [List.filter_cons_of_neg (by simpa using h)]
      cases hf : (rest.filter (fun e => e.1 == f)).getLast? with
      | some x => rfl
      | none => exact dictSet_lookup_ne cols e.1 e.2.2 f h

/-- Pointwise-equal functions give equal `mapM` runs over `Except`. -/
theorem mapM_ext {α β : Type} (f g : α → Except String β) (l : List α)
    (h : ∀ a ∈ l, f a = g a) : l.mapM f = l.mapM g := by
  induction l with
  | nil => rfl
  | cons x xs ih =>
    rw [List.mapM_cons, List.mapM_cons, h x (by simp),
      ih (fun a ha => h a (by simp [ha]))]

/-- A transformer returned by format detection belongs to the registry. -/
theorem make_transformer_mem (registry : List Transformer) (s : String)
    (t : Transformer)
    (h : make_transformer_from_sample_line registry s = Except.ok t) :
    t ∈ registry := by
  unfold make_transformer_from_sample_line at h
  cases hf : registry.find? (fun t => (t.tmatch s).isSome) with
  | none => rw [hf] at h; exact absurd h (by simp)
  | some t2 =>
    rw [hf] at h
    cases h
    exact List.mem_of_find?_eq_some hf

/-- A transformer whose parse function ignores the clock year transforms
identically in any year. -/
theorem transformerCall_year (t : Transformer) (y1 y2 : Nat) (s : String)
    (h : ∀ ya yb cap, t.str_to_time ya cap = t.str_to_time yb cap) :
    transformerCall t y1 s = transformerCall t y2 s := by
  cases ht : t.tmatch s with
  | none => simp [transformerCall, ht]
  | some cap => simp [transformerCall, ht, h y1 y2 cap]

/-- Source preparation is clock-independent whenever every registered parse
function is. -/
theorem prepSource_year (registry : List Transformer) (y1 y2 : Nat)
    (lines : List String)
    (h : ∀ t ∈ registry, ∀ ya yb cap, t.str_to_time ya cap = t.str_to_time yb cap) :
    prepSource registry y1 lines = prepSource registry y2 lines := by
  cases lines with
  | nil => rfl
  | cons s rest =>
    cases hm : make_transformer_from_sample_line registry s with
    | error e => simp only [prepSource, hm]; rfl
    | ok t =>
      have ht : t ∈ registry := make_transformer_mem registry s t hm
      simp only [prepSource, hm]
      show (s :: rest).mapM (fun l => transformerCall t y1 (rstrip l)) =
        (s :: rest).mapM (fun l => transformerCall t y2 (rstrip l))
      exact mapM_ext _ _ _
        (fun l _ => transformerCall_year t y1 y2 (rstrip l) (h t ht))

/-- C4 (confirmed): a single source's transformed lines with timestamps
`[10, 10, 11]` and bodies `["a", "b", "c"]` collapse to exactly two entries:
`(10, "a\nb")` — the consecutive same-timestamp lines joined by newline in
original order — followed by `(11, "c")`. -/
theorem claim_C4 :
    multilineLogCollapser keepAll true [(some 10, "a"), (some 10, "b"), (some 11, "c")] =
      [(10, "a\nb"), (11, "c")] := rfl

/-- C2 (code_bug evidence): a line whose text matches the `YMDHMS` shape
pattern but whose captured value is an impossible date makes
`TimestampedLineTransformer.__call__` propagate the `ValueError` raised by
`datetime.strptime` — there is no handler in the cited code — instead of
producing the continuation-line result the claim requires. -/
theorem claim_C2 :
    transformerCall YMDHMS 2023 "2023-02-30 08:00:00 oops" =
      Except.error "2023-02-30 08:00:00" ∧
    transformerCall YMDHMS 2023 "2023-02-30 08:00:00 oops" ≠
      Except.ok (none, strip_escape_sequences (" " ++ "2023-02-30 08:00:00 oops")) :=
  ⟨rfl, by decide⟩

/-- C5 counterexample: on a line that does not match the bound pattern the
transformer returns the escape-stripped text with a space prepended
(`f" {obj}"`), not the unchanged full text: `"hello"` comes back as
`" hello"`. -/
theorem claim_C5_counterexample :
    transformerCall YMDHMS 0 "hello" = Except.ok (none, " hello") ∧
    strip_escape_sequences "hello" = "hello" ∧
    transformerCall YMDHMS 0 "hello" ≠ Except.ok (none, "hello") :=
  ⟨rfl, rfl, by decide⟩

/-- C5 (corrected): for every line that does not match the source's bound
pattern, the transformer returns an absent timestamp together with the
line's escape-stripped text prefixed by one space as the body. -/
theorem claim_C5 (t : Transformer) (year : Nat) (s : String)
    (h : t.tmatch s = none) :
    transformerCall t year s = Except.ok (none, strip_escape_sequences (" " ++ s)) := by
  unfold transformerCall
  rw [h]

/-- Witness for C5 at a concrete non-matching line. -/
theorem claim_C5_witness :
    YMDHMS.tmatch "WARN no timestamp" = none ∧
    transformerCall YMDHMS 2023 "WARN no timestamp" =
      Except.ok (none, strip_escape_sequences (" " ++ "WARN no timestamp")) :=
  ⟨rfl, claim_C5 YMDHMS 2023 "WARN no timestamp" rfl⟩

/-- C7 counterexample: a source whose sample line matches no registered
matcher makes the pipeline fail with the `ValueError` message of
`make_transformer_from_sample_line`, which names the sample line but does
not contain the source name `log1.txt` anywhere. -/
theorem claim_C7_counterexample :
    runPipeline sampleRegistry 2023 ["log1.txt"] [["hello"]] =
      Except.error "no match for any timestamp pattern in 'hello'" ∧
    listContainsSub ("log1.txt".data) ("no match for any timestamp pattern in 'hello'").data = false :=
  ⟨rfl, by decide⟩

/-- C7 (corrected): when no registered matcher matches the sample line,
format detection fails with the `ValueError` whose message names the sample
line — `no match for any timestamp pattern in {s!r}` — surfaced to the
caller (the pipeline only handles `StopIteration`), so the source is not
silently skipped; the source name itself is not part of the error. -/
theorem claim_C7 (registry : List Transformer) (s : String)
    (h : ∀ t ∈ registry, t.tmatch s = none) :
    make_transformer_from_sample_line registry s =
      Except.error ("no match for any timestamp pattern in '" ++ s ++ "'") := by
  unfold make_transformer_from_sample_line
  rw [List.find?_eq_none.mpr (fun t ht => by simp [h t ht])]

/-- Witness for C7 on the registry and a concrete unmatched sample line. -/
theorem claim_C7_witness :
    (∀ t ∈ sampleRegistry, t.tmatch "hello" = none) ∧
    make_transformer_from_sample_line sampleRegistry "hello" =
      Except.error ("no match for any timestamp pattern in '" ++ "hello" ++ "'") :=
  ⟨by decide, claim_C7 sampleRegistry "hello" (by decide)⟩

/-- C9 counterexample: merging the same syslog source twice, in clock years
2023 and 2024, yields different output — `BDHMS` substitutes the current
year (`datetime.now().year`, since `_merge_log_file_lines` never attaches
file info) into every parsed timestamp, so the output is not a function of
the inputs alone. -/
theorem claim_C9_counterexample :
    runPipeline sampleRegistry 2023 ["syslog1.txt"] [["Jan  1 00:00:01 boot"]] =
      Except.ok [{ timestamp := "72714326401", columns := [("syslog1.txt", "boot")] }] ∧
    runPipeline sampleRegistry 2024 ["syslog1.txt"] [["Jan  1 00:00:01 boot"]] =
      Except.ok [{ timestamp := "72750268801", columns := [("syslog1.txt", "boot")] }] ∧
    runPipeline sampleRegistry 2023 ["syslog1.txt"] [["Jan  1 00:00:01 boot"]] ≠
      runPipeline sampleRegistry 2024 ["syslog1.txt"] [["Jan  1 00:00:01 boot"]] :=
  ⟨rfl, rfl, by decide⟩

/-- C9 (corrected): the merge pipeline is deterministic over identical inputs
and an identical clock environment; in particular, whenever every registered
parse function ignores the clock year (every format that carries its own
year), the output is byte-identical across runs in different years. -/
theorem claim_C9 (registry : List Transformer) (y1 y2 : Nat)
    (fns : List String) (srcs : List (List String))
    (h : ∀ t ∈ registry, ∀ ya yb cap, t.str_to_time ya cap = t.str_to_time yb cap) :
    runPipeline registry y1 fns srcs = runPipeline registry y2 fns srcs := by
  unfold runPipeline
  rw [mapM_ext _ _ srcs (fun src _ => prepSource_year registry y1 y2 src h)]

/-- Witness for C9 with the year-independent `YMDHMS` registry. -/
theorem claim_C9_witness :
    runPipeline [YMDHMS] 2023 ["log1.txt"] [["2023-07-14 08:00:01 a"]] =
      runPipeline [YMDHMS] 2024 ["log1.txt"] [["2023-07-14 08:00:01 a"]] :=
  claim_C9 [YMDHMS] 2023 2024 ["log1.txt"] [["2023-07-14 08:00:01 a"]]
    (fun t ht ya yb cap => by
      have he : t = YMDHMS := by simpa using ht
      subst he
      rfl)

/-- C10 (confirmed): when a merged group holds several entries from the same
source at one timestamp, the assembled record's column for that source is
overwritten by each of that source's entries in turn, so it ends up holding
only the last such entry's body. -/
theorem claim_C10 (fns : List String) (ts : Timestamp)
    (items : List LabeledEntry) (f : String) (e : LabeledEntry)
    (h : (items.filter (fun x => x.1 == f)).getLast? = some e) :
    (buildRecord fns ts items).col f = some e.2.2 := by
  unfold buildRecord MergedRecord.col
  simp only [foldl_dictSet_lookup, h]

/-- Witness for C10: two same-source entries at timestamp 10; the column
holds only the second body. -/
theorem claim_C10_witness :
    (([("a.log", ((10 : Timestamp), "first")), ("a.log", (10, "second"))].filter
        (fun x => x.1 == "a.log")).getLast? = some ("a.log", (10, "second"))) ∧
    (buildRecord ["a.log"] 10
        [("a.log", (10, "first")), ("a.log", (10, "second"))]).col "a.log" =
      some "second" :=
  ⟨rfl, claim_C10 ["a.log"] 10 [("a.log", (10, "first")), ("a.log", (10, "second"))]
    "a.log" ("a.log", (10, "second")) rfl⟩

/-- C8 (confirmed): with `include_non_timestamped_lines` off, the collapser
assembles each emitted entry's body from the group's lines *after* filtering
out the untimestamped ones — the filter runs post-grouping — so the text of
every line of the group that carries a timestamp is among the texts joined
into the body, even when every continuation line of the group is filtered
away. -/
theorem claim_C8 (gs : List LineGroup) :
    collapseGroups keepAll false gs =
      gs.map (fun g => (g.1,
        String.intercalate "\n" ((g.2.filter (fun l => l.1.isSome)).map Prod.snd))) ∧
    ∀ g ∈ gs, ∀ l ∈ g.2, l.1.isSome = true →
      l.2 ∈ (g.2.filter (fun l => l.1.isSome)).map Prod.snd := by
  constructor
  · induction gs with
    | nil => rfl
    | cons g rest ih =>
      cases g with
      | mk ts lines => simp [collapseGroups, keepAll, ih]
  · intro g _ l hl hsome
    exact List.mem_map_of_mem Prod.snd (List.mem_filter.mpr ⟨hl, hsome⟩)

/-- Witness for C8: a group whose timestamped head is followed by one
untimestamped continuation line; the body keeps exactly the head's text. -/
theorem claim_C8_witness :
    collapseGroups keepAll false [(10, [(some 10, "head"), (none, "cont")])] =
      [(10, "head")] ∧
    "head" ∈ (([(some (10 : Timestamp), "head"), (none, "cont")].filter
      (fun l => l.1.isSome)).map Prod.snd) := by
  refine ⟨?_, ?_⟩
  · have h := (claim_C8 [(10, [(some 10, "head"), (none, "cont")])]).1
    simpa using h
  · exact (claim_C8 [(10, [(some 10, "head"), (none, "cont")])]).2
      (10, [(some 10, "head"), (none, "cont")]) (by simp)
      (some 10, "head") (by simp) rfl

/-- Unfolding lemma: an ascending block starts with its first group. -/
theorem ascGrps_succ (a n : Nat) : ascGrps a (n + 1) = grp a :: ascGrps (a + 1) n := by
  simp [ascGrps, List.range'_succ]

/-- Length of an ascending block. -/
theorem ascGrps_length (a n : Nat) : (ascGrps a n).length = n := by
  simp [ascGrps]

/-- Concatenating adjacent ascending blocks. -/
theorem ascGrps_append (a m n : Nat) :
    ascGrps a m ++ ascGrps (a + m) n = ascGrps a (m + n) := by
  have h := List.range'_append a m n 1
  simp only [one_mul] at h
  rw [ascGrps, ascGrps, ascGrps, ← List.map_append, h, Nat.add_comm n m]

/-- Key of a one-line group. -/
theorem grp_fst (a : Nat) : (grp a).1 = a := rfl

/-- Keys of an ascending block. -/
theorem ascGrps_keys (a n : Nat) : (ascGrps a n).map Prod.fst = List.range' a n := by
  induction n generalizing a with
  | zero => rfl
  | succ n ih => rw [ascGrps_succ, List.range'_succ, List.map_cons, ih, grp_fst]

/-- Last element of a nonempty ascending block. -/
theorem ascGrps_getLast (a n : Nat) :
    (ascGrps a (n + 1)).getLast? = some (grp (a + n)) := by
  induction n generalizing a with
  | zero => rfl
  | succ n ih =>
    rw [ascGrps_succ, ascGrps_succ, List.getLast?_cons_cons, ← ascGrps_succ, ih]
    have h1 : a + 1 + n = a + (n + 1) := by omega
    rw [h1]

/-- Inserting below every key of the target list prepends. -/
theorem insSorted_front (x g : LineGroup) (gs : List LineGroup)
    (h : ¬ g.1 < x.1) : insSorted x (g :: gs) = x :: g :: gs := by
  simp [insSorted, h]

/-- Inserting above the head key recurses past it. -/
theorem insSorted_cons_lt (x g : LineGroup) (gs : List LineGroup)
    (h : g.1 < x.1) : insSorted x (g :: gs) = g :: insSorted x gs := by
  simp [insSorted, h]

/-- Inserting the group `grp a` in front of the ascending block starting at
`a + 1` rebuilds the ascending block starting at `a`. -/
theorem insSorted_asc (a n : Nat) :
    insSorted (grp a) (ascGrps (a + 1) n) = ascGrps a (n + 1) := by
  cases n with
  | zero => rfl
  | succ n =>
    rw [ascGrps_succ,
      insSorted_front (grp a) (grp (a + 1)) _ (by show ¬ a + 1 < a; omega),
      ← ascGrps_succ, ← ascGrps_succ]

/-- An ascending block is already stably sorted. -/
theorem sortGroups_asc (a n : Nat) : sortGroups (ascGrps a n) = ascGrps a n := by
  induction n generalizing a with
  | zero => rfl
  | succ n ih =>
    rw [ascGrps_succ, sortGroups, ih, insSorted_asc, ascGrps_succ]

/-- Stably sorting an ascending block followed by one smaller-key group moves
that group to the front. -/
theorem sortGroups_asc_append (a n b : Nat) (hb : b < a) :
    sortGroups (ascGrps a n ++ [grp b]) = grp b :: ascGrps a n := by
  induction n generalizing a with
  | zero => rfl
  | succ n ih =>
    rw [ascGrps_succ, List.cons_append, sortGroups, ih (a + 1) (by omega),
      insSorted_cons_lt (grp a) (grp b) _ (by show b < a; exact hb),
      insSorted_asc, ascGrps_succ]

/-- Fusing adjacent equal keys leaves a list untouched when the accumulator
key differs from the head of an ascending block. -/
theorem mergeAdjAux_asc (g : LineGroup) (a n : Nat) (h : n = 0 ∨ g.1 ≠ a) :
    mergeAdjAux g (ascGrps a n) = g :: ascGrps a n := by
  induction n generalizing g a with
  | zero => rfl
  | succ n ih =>
    have hne : g.1 ≠ a := by
      rcases h with h | h
      · exact absurd h (by omega)
      · exact h
    have hrec : mergeAdjAux (grp a) (ascGrps (a + 1) n) = grp a :: ascGrps (a + 1) n :=
      ih (grp a) (a + 1) (by
        cases n with
        | zero => exact Or.inl rfl
        | succ m => refine Or.inr ?_; show a ≠ a + 1; omega)
    rw [ascGrps_succ, mergeAdjAux]
    simp only [grp_fst]
    rw [if_neg hne, hrec]

/-- An ascending block has no adjacent equal keys, so fusing is the identity. -/
theorem mergeAdjacent_asc (a n : Nat) : mergeAdjacent (ascGrps a n) = ascGrps a n := by
  cases n with
  | zero => rfl
  | succ n =>
    rw [ascGrps_succ, mergeAdjacent,
      mergeAdjAux_asc (grp a) (a + 1) n (by
        cases n with
        | zero => exact Or.inl rfl
        | succ m => refine Or.inr ?_; show a ≠ a + 1; omega),
      ← ascGrps_succ]

/-- Fusing is the identity on a small-key group followed by an ascending
block with larger starting key. -/
theorem mergeAdjacent_cons_asc (b a n : Nat) (hb : b ≠ a ∨ n = 0) :
    mergeAdjacent (grp b :: ascGrps a n) = grp b :: ascGrps a n := by
  rw [mergeAdjacent, mergeAdjAux_asc (grp b) a n (by
    rcases hb with h | h
    · refine Or.inr ?_; show b ≠ a; exact h
    · exact Or.inl h)]

/-- Draining `WindowedSort` once the input is exhausted emits the buffer in
order, given sufficient fuel. -/
theorem wsRun_drain (buf : List LineGroup) (fuel : Nat) (last : Option Timestamp)
    (c : Bool) (h : buf.length ≤ fuel) : wsRun fuel buf last [] c = buf := by
  induction buf generalizing fuel c with
  | nil => cases fuel <;> rfl
  | cons g bs ih =>
    cases fuel with
    | zero => simp at h
    | succ f =>
      show g :: wsRun f bs last [] c = g :: bs
      rw [ih f c (by simpa using h)]

/-- One not-yet-consumed iteration of `WindowedSort.__next__`: refill with the
next input group, then pop the buffer head. -/
theorem wsRun_cons_step (fuel : Nat) (buf : List LineGroup) (last : Option Timestamp)
    (x : LineGroup) (r : List LineGroup) (g : LineGroup) (bs : List LineGroup)
    (last2 : Option Timestamp)
    (hstep : wsStep buf last x = (g :: bs, last2)) :
    wsRun (fuel + 1) buf last (x :: r) false = g :: wsRun fuel bs last2 r false := by
  cases buf with
  | nil => simp only [wsRun, hstep, Bool.false_eq_true, if_false]
  | cons b0 bs0 => simp only [wsRun, hstep, Bool.false_eq_true, if_false]

/-- Refilling with a group whose key exceeds `last_line_key` appends it. -/
theorem wsStep_append (buf : List LineGroup) (l : Timestamp) (x : LineGroup)
    (h : ¬ x.1 ≤ l) : wsStep buf (some l) x = (buf ++ [x], some x.1) := by
  simp only [wsStep, Option.getD_some]
  rw [if_neg h]

/-- Phase one of the large-inversion run: while the late group has not yet
arrived, every refill appends at the tail and every pop emits the buffer
head, sliding the window across the ascending input. -/
theorem wsRun_phase1 (w j b f : Nat) :
    wsRun (f + j) (ascGrps b (w + 1)) (some (b + w)) (ascGrps (b + w + 1) j ++ [grp 1]) false =
      ascGrps b j ++ wsRun f (ascGrps (b + j) (w + 1)) (some (b + j + w)) [grp 1] false := by
  induction j generalizing b f with
  | zero => simp [ascGrps]
  | succ j ih =>
    have hrest : ascGrps (b + w + 1) (j + 1) ++ [grp 1] =
        grp (b + w + 1) :: (ascGrps (b + w + 2) j ++ [grp 1]) := by
      rw [ascGrps_succ]; rfl
    have hstep : wsStep (ascGrps b (w + 1)) (some (b + w)) (grp (b + w + 1)) =
        (grp b :: ascGrps (b + 1) (w + 1), some (b + w + 1)) := by
      rw [wsStep_append _ _ _ (by show ¬ b + w + 1 ≤ b + w; omega), grp_fst]
      rw [show ([grp (b + w + 1)] : List LineGroup) = ascGrps (b + (w + 1)) 1 from rfl,
        ascGrps_append, ascGrps_succ]
    rw [hrest]
    show wsRun (f + j + 1) (ascGrps b (w + 1)) (some (b + w))
        (grp (b + w + 1) :: (ascGrps (b + w + 2) j ++ [grp 1])) false =
      ascGrps b (j + 1) ++
        wsRun f (ascGrps (b + (j + 1)) (w + 1)) (some (b + (j + 1) + w)) [grp 1] false
    rw [wsRun_cons_step (f + j) _ _ _ _ _ _ _ hstep]
    have H := ih (b + 1) f
    simp only [show b + 1 + w + 1 = b + w + 2 from by omega,
      show b + 1 + w = b + w + 1 from by omega,
      show b + 1 + j = b + (j + 1) from by omega,
      show b + (j + 1) + w = b + j + w + 1 from by omega] at H ⊢
    rw [H, show ascGrps b (j + 1) = grp b :: ascGrps (b + 1) j from ascGrps_succ b j,
      List.cons_append]

/-- Phase two: once the late minimal group arrives it is inserted at the
front of the buffer and emitted at once; the rest of the buffer then drains
in ascending order. -/
theorem wsRun_phase2 (w f a : Nat) (ha : 2 ≤ a) (hf : w + 1 ≤ f) :
    wsRun (f + 1) (ascGrps a (w + 1)) (some (a + w)) [grp 1] false =
      grp 1 :: ascGrps a (w + 1) := by
  have hstep : wsStep (ascGrps a (w + 1)) (some (a + w)) (grp 1) =
      (grp 1 :: ascGrps a (w + 1), some (a + w)) := by
    simp only [wsStep, Option.getD_some, grp_fst]
    rw [if_pos (show (1 : Nat) ≤ a + w by omega), ascGrps_succ, wsInsert]
    rw [if_neg (show ¬ (grp a).1 < 1 by show ¬ (a : Nat) < 1; omega),
      if_neg (show ¬ (grp a).1 = 1 by show ¬ (a : Nat) = 1; omega), ← ascGrps_succ]
    rfl
  rw [wsRun_cons_step f _ _ _ _ _ _ _ hstep,
    wsRun_drain _ _ _ _ (by rw [ascGrps_length]; exact hf)]

/-- Take of an append along the length of the left part. -/
theorem take_append_len {α : Type} (l1 l2 : List α) (n : Nat) (h : l1.length = n) :
    (l1 ++ l2).take n = l1 := by
  subst h; exact List.take_left l1 l2

/-- Drop of an append along the length of the left part. -/
theorem drop_append_len {α : Type} (l1 l2 : List α) (n : Nat) (h : l1.length = n) :
    (l1 ++ l2).drop n = l2 := by
  subst h; exact List.drop_left l1 l2

/-- A value below the head of an ascending key run is adjacent-ordered. -/
theorem adjacentLE_cons_range (b a n : Nat) (hba : b ≤ a) :
    adjacentLE (b :: List.range' a n) = true := by
  induction n generalizing b a with
  | zero => rfl
  | succ n ih =>
    rw [List.range'_succ]
    show (decide (b ≤ a) && adjacentLE (a :: List.range' (a + 1) n)) = true
    rw [ih a (a + 1) (by omega), decide_eq_true hba, Bool.and_true]

/-- A descent hidden after an ascending key run still falsifies the
adjacency check. -/
theorem adjacentLE_range_desc (a n x : Nat) (l : List Nat) (hx : x < a) :
    adjacentLE (List.range' a (n + 1) ++ x :: l) = false := by
  induction n generalizing a with
  | zero =>
    rw [List.range'_one, List.cons_append, List.nil_append]
    show (decide (a ≤ x) && adjacentLE (x :: l)) = false
    rw [decide_eq_false (by omega), Bool.false_and]
  | succ n ih =>
    rw [List.range'_succ, List.cons_append, List.range'_succ, List.cons_append]
    show (decide (a ≤ a + 1) &&
      adjacentLE ((a + 1) :: (List.range' (a + 2) n ++ x :: l))) = false
    have hih := ih (a + 1) (by omega)
    rw [List.range'_succ, List.cons_append] at hih
    rw [hih, Bool.and_false]

/-- C3 (confirmed): feed `WindowedSort` a single source whose groups are the
canonical single-inversion family — `d` strictly ascending keys followed by
the late minimal key, an inversion of distance `d`.  With window `W = w + 1`:
for every `d ≤ W` the output is the fully corrected ascending order (and
passes the adjacency check), while for every `d = W + m + 1 > W` the late
group overtakes only `W` positions, so the output retains the residual
inversion (and fails the adjacency check); no error is possible since the
reorderer is total. -/
theorem claim_C3 (w : Nat) :
    (∀ d, d ≤ w + 1 →
      windowedSort (w + 1) (ascGrps 2 d ++ [grp 1]) = grp 1 :: ascGrps 2 d ∧
      adjacentLE ((grp 1 :: ascGrps 2 d).map Prod.fst) = true) ∧
    (∀ m, windowedSort (w + 1) (ascGrps 2 (w + m + 2) ++ [grp 1]) =
        ascGrps 2 (m + 1) ++ grp 1 :: ascGrps (m + 3) (w + 1) ∧
      adjacentLE ((ascGrps 2 (m + 1) ++ grp 1 :: ascGrps (m + 3) (w + 1)).map Prod.fst) =
        false) := by
  constructor
  · intro d hd
    constructor
    · rcases Nat.lt_or_ge d (w + 1) with hlt | hge
      · simp only [windowedSort]
        rw [List.take_of_length_le (by simp [ascGrps_length]; omega),
          List.drop_eq_nil_of_le (by simp [ascGrps_length]; omega),
          sortGroups_asc_append 2 d 1 (by omega),
          mergeAdjacent_cons_asc 1 2 d (Or.inl (by omega)),
          wsRun_drain _ _ _ _ (by simp)]
      · have hdw : d = w + 1 := by omega
        subst hdw
        simp only [windowedSort]
        rw [take_append_len _ _ _ (ascGrps_length 2 (w + 1)),
          drop_append_len _ _ _ (ascGrps_length 2 (w + 1)),
          sortGroups_asc, mergeAdjacent_asc, ascGrps_getLast, ascGrps_length]
        simp only [Option.map_some, grp_fst, List.length_cons, List.length_nil]
        rw [decide_eq_false (by omega)]
        exact wsRun_phase2 w (w + 1) 2 (by omega) (by omega)
    · rw [List.map_cons, ascGrps_keys, grp_fst]
      exact adjacentLE_cons_range 1 2 d (by omega)
  · intro m
    constructor
    · have hsplit : ascGrps 2 (w + m + 2) =
          ascGrps 2 (w + 1) ++ ascGrps (2 + (w + 1)) (m + 1) := by
        rw [ascGrps_append]
        rw [show (w + 1) + (m + 1) = w + m + 2 from by omega]
      simp only [windowedSort]
      rw [hsplit, List.append_assoc,
        take_append_len _ _ _ (ascGrps_length 2 (w + 1)),
        drop_append_len _ _ _ (ascGrps_length 2 (w + 1)),
        sortGroups_asc, mergeAdjacent_asc, ascGrps_getLast, ascGrps_length]
      simp only [Option.map_some, grp_fst, List.length_append, ascGrps_length,
        List.length_cons, List.length_nil]
      rw [decide_eq_false (by omega)]
      rw [show Option.map Prod.fst (some (grp (2 + w))) = some (2 + w) from rfl]
      rw [show (2 : Nat) + (w + 1) = 2 + w + 1 from by omega]
      rw [show (w + 1 + (m + 1 + (0 + 1)) : Nat) = (w + 2) + (m + 1) from by omega]
      rw [wsRun_phase1 w (m + 1) 2 (w + 2)]
      have hp2 := wsRun_phase2 w (w + 1) (2 + (m + 1)) (by omega) (by omega)
      rw [show ((w + 1) + 1 : Nat) = w + 2 from by omega] at hp2
      rw [hp2, show (2 + (m + 1) : Nat) = m + 3 from by omega]
    · rw [List.map_append, List.map_cons, ascGrps_keys, ascGrps_keys, grp_fst]
      exact adjacentLE_range_desc 2 m 1 _ (by omega)

/-- Witness for C3 at the default window `W = 40`: a distance-3 inversion is
corrected, a distance-41 inversion survives. -/
theorem claim_C3_witness :
    windowedSort 40 (ascGrps 2 3 ++ [grp 1]) = grp 1 :: ascGrps 2 3 ∧
    windowedSort 40 (ascGrps 2 41 ++ [grp 1]) =
      ascGrps 2 1 ++ grp 1 :: ascGrps 3 40 :=
  ⟨((claim_C3 39).1 3 (by omega)).1, ((claim_C3 39).2 0).1⟩

/-- The heap yields nothing exactly when every iterator is exhausted. -/
theorem pickMin_eq_none (key : LabeledEntry → Timestamp)
    (seqs : List (List LabeledEntry)) :
    pickMin key seqs = none ↔ ∀ s ∈ seqs, s = [] := by
  induction seqs with
  | nil => simp [pickMin]
  | cons s rest ih =>
    cases s with
    | nil =>
      simp only [pickMin]
      cases hpm : pickMin key rest with
      | none =>
        constructor
        · intro _ s hs
          rcases List.mem_cons.mp hs with h1 | h1
          · exact h1
          · exact ih.mp hpm s h1
        · intro _
          rfl
      | some p =>
        constructor
        · intro hcon
          exact absurd hcon (by simp)
        · intro hall
          have : pickMin key rest = none := ih.mpr (fun s hs => hall s (by simp [hs]))
          rw [this] at hpm
          simp at hpm
    | cons e t =>
      simp only [pickMin]
      constructor
      · intro hcon
        cases hpm : pickMin key rest with
        | none => rw [hpm] at hcon; simp at hcon
        | some p =>
          rw [hpm] at hcon
          cases p with
          | mk y r2 => by_cases hc : key y < key e <;> simp [hc] at hcon
      · intro hall
        have := hall (e :: t) (by simp)
        simp at this

/-- The emitted entry is an element of one of the input iterators. -/
theorem pickMin_mem (key : LabeledEntry → Timestamp)
    (seqs : List (List LabeledEntry)) (x : LabeledEntry)
    (s2 : List (List LabeledEntry)) (h : pickMin key seqs = some (x, s2)) :
    ∃ s ∈ seqs, x ∈ s := by
  induction seqs generalizing x s2 with
  | nil => simp [pickMin] at h
  | cons s rest ih =>
    cases s with
    | nil =>
      simp only [pickMin] at h
      cases hpm : pickMin key rest with
      | none => rw [hpm] at h; simp at h
      | some p =>
        cases p with
        | mk y r2 =>
          rw [hpm] at h
          simp at h
          obtain ⟨hy, -⟩ := h
          subst hy
          obtain ⟨s3, hs3, hmem⟩ := ih y r2 hpm
          exact ⟨s3, by simp [hs3], hmem⟩
    | cons e t =>
      simp only [pickMin] at h
      cases hpm : pickMin key rest with
      | none =>
        rw [hpm] at h
        simp at h
        obtain ⟨hx, -⟩ := h
        subst hx
        exact ⟨e :: t, by simp, by simp⟩
      | some p =>
        cases p with
        | mk y r2 =>
          rw [hpm] at h
          by_cases hc : key y < key e
          · simp [hc] at h
            obtain ⟨hy, -⟩ := h
            subst hy
            obtain ⟨s3, hs3, hmem⟩ := ih y r2 hpm
            exact ⟨s3, by simp [hs3], hmem⟩
          · simp [hc] at h
            obtain ⟨hx, -⟩ := h
            subst hx
            exact ⟨e :: t, by simp, by simp⟩

/-- The emitted entry's key is a lower bound on every iterator head. -/
theorem pickMin_min_heads (key : LabeledEntry → Timestamp)
    (seqs : List (List LabeledEntry)) (x : LabeledEntry)
    (s2 : List (List LabeledEntry)) (h : pickMin key seqs = some (x, s2)) :
    ∀ s ∈ seqs, ∀ y t, s = y :: t → key x ≤ key y := by
  induction seqs generalizing x s2 with
  | nil => simp [pickMin] at h
  | cons s rest ih =>
    intro s0 hs0 y t hyt
    cases s with
    | nil =>
      simp only [pickMin] at h
      cases hpm : pickMin key rest with
      | none => rw [hpm] at h; simp at h
      | some p =>
        cases p with
        | mk z r2 =>
          rw [hpm] at h
          simp at h
          obtain ⟨hz, -⟩ := h
          subst hz
          rcases List.mem_cons.mp hs0 with h1 | h1
          · rw [h1] at hyt; simp at hyt
          · exact ih z r2 hpm s0 h1 y t hyt
    | cons e t0 =>
      simp only [pickMin] at h
      cases hpm : pickMin key rest with
      | none =>
        rw [hpm] at h
        simp at h
        obtain ⟨hx, -⟩ := h
        subst hx
        rcases List.mem_cons.mp hs0 with h1 | h1
        · rw [h1] at hyt
          rw [(List.cons.inj hyt).1]
        · have he : s0 = [] := (pickMin_eq_none key rest).mp hpm s0 h1
          rw [he] at hyt; simp at hyt
      | some p =>
        cases p with
        | mk z r2 =>
          rw [hpm] at h
          by_cases hc : key z < key e
          · simp [hc] at h
            obtain ⟨hz, -⟩ := h
            subst hz
            rcases List.mem_cons.mp hs0 with h1 | h1
            · rw [h1] at hyt
              have he := (List.cons.inj hyt).1
              rw [← he]
              exact Nat.le_of_lt hc
            · exact ih z r2 hpm s0 h1 y t hyt
          · simp [hc] at h
            obtain ⟨hx, -⟩ := h
            subst hx
            rcases List.mem_cons.mp hs0 with h1 | h1
            · rw [h1] at hyt
              rw [(List.cons.inj hyt).1]
            · have hz := ih z r2 hpm s0 h1 y t hyt
              exact Nat.le_trans (Nat.le_of_not_lt hc) hz

/-- Every element of the advanced iterator state was an element of the input
state. -/
theorem pickMin_sub (key : LabeledEntry → Timestamp)
    (seqs : List (List LabeledEntry)) (x : LabeledEntry)
    (s2 : List (List LabeledEntry)) (h : pickMin key seqs = some (x, s2)) :
    ∀ z s3, s3 ∈ s2 → z ∈ s3 → ∃ s ∈ seqs, z ∈ s := by
  induction seqs generalizing x s2 with
  | nil => simp [pickMin] at h
  | cons s rest ih =>
    intro z s3 hs3 hz
    cases s with
    | nil =>
      simp only [pickMin] at h
      cases hpm : pickMin key rest with
      | none => rw [hpm] at h; simp at h
      | some p =>
        cases p with
        | mk y r2 =>
          rw [hpm] at h
          simp at h
          obtain ⟨-, hr⟩ := h
          rw [← hr] at hs3
          rcases List.mem_cons.mp hs3 with h1 | h1
          · rw [h1] at hz; simp at hz
          · obtain ⟨s4, hs4, hzz⟩ := ih y r2 hpm z s3 h1 hz
            exact ⟨s4, by simp [hs4], hzz⟩
    | cons e t =>
      simp only [pickMin] at h
      cases hpm : pickMin key rest with
      | none =>
        rw [hpm] at h
        simp at h
        obtain ⟨-, hr⟩ := h
        rw [← hr] at hs3
        rcases List.mem_cons.mp hs3 with h1 | h1
        · exact ⟨e :: t, by simp, by rw [h1] at hz; simp [hz]⟩
        · exact ⟨s3, by simp [h1], hz⟩
      | some p =>
        cases p with
        | mk y r2 =>
          rw [hpm] at h
          by_cases hc : key y < key e
          · simp [hc] at h
            obtain ⟨-, hr⟩ := h
            rw [← hr] at hs3
            rcases List.mem_cons.mp hs3 with h1 | h1
            · exact ⟨e :: t, by simp, by rw [h1] at hz; exact hz⟩
            · obtain ⟨s4, hs4, hzz⟩ := ih y r2 hpm z s3 h1 hz
              exact ⟨s4, by simp [hs4], hzz⟩
          · simp [hc] at h
            obtain ⟨-, hr⟩ := h
            rw [← hr] at hs3
            rcases List.mem_cons.mp hs3 with h1 | h1
            · exact ⟨e :: t, by simp, by rw [h1] at hz; simp [hz]⟩
            · exact ⟨s3, by simp [h1], hz⟩

/-- Advancing one iterator preserves sortedness of every iterator. -/
theorem pickMin_pairwise (key : LabeledEntry → Timestamp)
    (seqs : List (List LabeledEntry)) (x : LabeledEntry)
    (s2 : List (List LabeledEntry)) (h : pickMin key seqs = some (x, s2))
    (hs : ∀ s ∈ seqs, List.Pairwise (fun a b => key a ≤ key b) s) :
    ∀ s3 ∈ s2, List.Pairwise (fun a b => key a ≤ key b) s3 := by
  induction seqs generalizing x s2 with
  | nil => simp [pickMin] at h
  | cons s rest ih =>
    intro s3 hs3
    cases s with
    | nil =>
      simp only [pickMin] at h
      cases hpm : pickMin key rest with
      | none => rw [hpm] at h; simp at h
      | some p =>
        cases p with
        | mk y r2 =>
          rw [hpm] at h
          simp at h
          obtain ⟨-, hr⟩ := h
          rw [← hr] at hs3
          rcases List.mem_cons.mp hs3 with h1 | h1
          · rw [h1]; exact List.Pairwise.nil
          · exact ih y r2 hpm (fun s4 hs4 => hs s4 (by simp [hs4])) s3 h1
    | cons e t =>
      simp only [pickMin] at h
      cases hpm : pickMin key rest with
      | none =>
        rw [hpm] at h
        simp at h
        obtain ⟨-, hr⟩ := h
        rw [← hr] at hs3
        rcases List.mem_cons.mp hs3 with h1 | h1
        · rw [h1]
          exact (hs (e :: t) (by simp)).tail
        · exact hs s3 (by simp [h1])
      | some p =>
        cases p with
        | mk y r2 =>
          rw [hpm] at h
          by_cases hc : key y < key e
          · simp [hc] at h
            obtain ⟨-, hr⟩ := h
            rw [← hr] at hs3
            rcases List.mem_cons.mp hs3 with h1 | h1
            · rw [h1]; exact hs (e :: t) (by simp)
            · exact ih y r2 hpm (fun s4 hs4 => hs s4 (by simp [hs4])) s3 h1
          · simp [hc] at h
            obtain ⟨-, hr⟩ := h
            rw [← hr] at hs3
            rcases List.mem_cons.mp hs3 with h1 | h1
            · rw [h1]
              exact (hs (e :: t) (by simp)).tail
            · exact hs s3 (by simp [h1])

/-- Every entry emitted by the heap merge is an element of one input
iterator. -/
theorem kMerge_mem (key : LabeledEntry → Timestamp) (fuel : Nat)
    (seqs : List (List LabeledEntry)) (z : LabeledEntry)
    (h : z ∈ kMerge key fuel seqs) : ∃ s ∈ seqs, z ∈ s := by
  induction fuel generalizing seqs with
  | zero => simp [kMerge] at h
  | succ f ih =>
    simp only [kMerge] at h
    cases hpm : pickMin key seqs with
    | none => rw [hpm] at h; simp at h
    | some p =>
      cases p with
      | mk x s2 =>
        rw [hpm] at h
        rcases List.mem_cons.mp h with h1 | h1
        · rw [h1]; exact pickMin_mem key seqs x s2 hpm
        · obtain ⟨s3, hs3, hz⟩ := ih s2 h1
          exact pickMin_sub key seqs x s2 hpm z s3 hs3 hz

/-- Output of the heap merge over sorted iterators is sorted by key: the
content of `heapq.merge`'s ordering contract. -/
theorem kMerge_pairwise (key : LabeledEntry → Timestamp) (fuel : Nat)
    (seqs : List (List LabeledEntry))
    (hs : ∀ s ∈ seqs, List.Pairwise (fun a b => key a ≤ key b) s) :
    List.Pairwise (fun a b => key a ≤ key b) (kMerge key fuel seqs) := by
  induction fuel generalizing seqs with
  | zero => exact List.Pairwise.nil
  | succ f ih =>
    simp only [kMerge]
    cases hpm : pickMin key seqs with
    | none => exact List.Pairwise.nil
    | some p =>
      cases p with
      | mk x s2 =>
        refine List.Pairwise.cons ?_ (ih s2 (pickMin_pairwise key seqs x s2 hpm hs))
        intro z hz
        obtain ⟨s3, hs3, hzz⟩ := kMerge_mem key f s2 z hz
        obtain ⟨s4, hs4, hz4⟩ := pickMin_sub key seqs x s2 hpm z s3 hs3 hzz
        cases s4 with
        | nil => simp at hz4
        | cons y t =>
          have hxy : key x ≤ key y := pickMin_min_heads key seqs x s2 hpm _ hs4 y t rfl
          rcases List.mem_cons.mp hz4 with h1 | h1
          · rw [h1]; exact hxy
          · have hyz : key y ≤ key z :=
              List.rel_of_pairwise_cons (hs (y :: t) hs4) h1
            exact Nat.le_trans hxy hyz

/-- A nonempty stream's first group carries the key of its first element. -/
theorem groupRuns_head (key : LabeledEntry → Timestamp) (x : LabeledEntry)
    (xs : List LabeledEntry) :
    ∃ ys gs, groupRuns key (x :: xs) = (key x, ys) :: gs := by
  simp only [groupRuns]
  cases groupRuns key xs with
  | nil => exact ⟨[x], [], rfl⟩
  | cons g gs =>
    cases g with
    | mk k ys =>
      by_cases hc : key x = k
      · refine ⟨x :: ys, gs, ?_⟩
        show (if key x = k then (k, x :: ys) :: gs
          else (key x, [x]) :: (k, ys) :: gs) = (key x, x :: ys) :: gs
        rw [if_pos hc, hc]
      · refine ⟨[x], (k, ys) :: gs, ?_⟩
        show (if key x = k then (k, x :: ys) :: gs
          else (key x, [x]) :: (k, ys) :: gs) = (key x, [x]) :: (k, ys) :: gs
        rw [if_neg hc]

/-- Every entry inside a group carries the group's key: `itertools.groupby`
groups by key equality. -/
theorem groupRuns_entries (key : LabeledEntry → Timestamp)
    (l : List LabeledEntry) :
    ∀ g ∈ groupRuns key l, ∀ e ∈ g.2, key e = g.1 := by
  induction l with
  | nil => simp [groupRuns]
  | cons x xs ih =>
    intro g hg e he
    simp only [groupRuns] at hg
    cases hgr : groupRuns key xs with
    | nil =>
      rw [hgr] at hg
      simp at hg
      rw [hg] at he ⊢
      simp at he
      rw [he]
    | cons g0 gs =>
      cases g0 with
      | mk k ys =>
        rw [hgr] at hg
        have hg2 : g ∈ (if key x = k then ((k, x :: ys) :: gs)
            else ((key x, [x]) :: (k, ys) :: gs)) := hg
        by_cases hc : key x = k
        · rw [if_pos hc] at hg2
          rcases List.mem_cons.mp hg2 with h1 | h1
          · rw [h1] at he ⊢
            rcases List.mem_cons.mp he with h2 | h2
            · rw [h2]; exact hc
            · exact ih (k, ys) (by rw [hgr]; simp) e h2
          · exact ih g (by rw [hgr]; simp [h1]) e he
        · rw [if_neg hc] at hg2
          rcases List.mem_cons.mp hg2 with h1 | h1
          · rw [h1] at he ⊢
            simp at he
            rw [he]
          · exact ih g (by rw [hgr]; exact h1) e he

/-- Grouping a non-decreasing stream yields strictly increasing group keys:
adjacent equal keys are fused, so no two output groups share a timestamp. -/
theorem groupRuns_strict (key : LabeledEntry → Timestamp)
    (l : List LabeledEntry)
    (hl : List.Pairwise (fun a b => key a ≤ key b) l) :
    List.Pairwise (fun g1 g2 => g1.1 < g2.1) (groupRuns key l) := by
  induction l with
  | nil => exact List.Pairwise.nil
  | cons x xs ih =>
    simp only [groupRuns]
    cases hgr : groupRuns key xs with
    | nil => simp
    | cons g0 gs =>
      cases g0 with
      | mk k ys =>
        have hxs : ∃ x2 xs2, xs = x2 :: xs2 ∧ key x2 = k := by
          cases xs with
          | nil => simp [groupRuns] at hgr
          | cons x2 xs2 =>
            obtain ⟨ys2, gs2, hh⟩ := groupRuns_head key x2 xs2
            rw [hh] at hgr
            exact ⟨x2, xs2, rfl, (Prod.mk.inj (List.cons.inj hgr).1).1⟩
        obtain ⟨x2, xs2, hxx, hk⟩ := hxs
        have hxk : key x ≤ k := by
          rw [← hk]
          exact List.rel_of_pairwise_cons hl (by rw [hxx]; simp)
        have hrec := ih hl.tail
        rw [hgr] at hrec
        show List.Pairwise (fun g1 g2 => g1.1 < g2.1)
          (if key x = k then ((k, x :: ys) :: gs)
            else ((key x, [x]) :: (k, ys) :: gs))
        by_cases hc : key x = k
        · rw [if_pos hc]
          refine List.Pairwise.cons ?_ hrec.tail
          intro g hgmem
          have := List.rel_of_pairwise_cons hrec hgmem
          simpa [hc] using this
        · rw [if_neg hc]
          have hlt : key x < k := Nat.lt_of_le_of_ne hxk hc
          refine List.Pairwise.cons ?_ hrec
          intro g hgmem
          rcases List.mem_cons.mp hgmem with h1 | h1
          · rw [h1]; exact hlt
          · have := List.rel_of_pairwise_cons hrec h1
            exact Nat.lt_trans hlt this

/-- C1 counterexample: a single source whose 42 one-line groups end with an
inversion of distance 41 (one more than the 40-group window) makes the full
pipeline emit merged groups whose timestamps are not non-decreasing — the
record list is the image of these groups, so adjacent output records violate
`record[i].timestamp <= record[i+1].timestamp`. -/
theorem claim_C1_counterexample :
    adjacentLE ((mergedGroups ["a.log"]
      [(List.range' 2 41).map (fun k => ((some k : Option Timestamp), "x")) ++
        [(some 1, "x")]] true).map Prod.fst) = false := by decide

/-- C1 (corrected): whenever every collapsed per-source stream is
non-decreasing by timestamp — which rule 4.4 guarantees when all inversions
lie within the 40-group window — the merged output groups are strictly
increasing by timestamp (adjacent records non-decreasing, and no two records
share a timestamp), and every entry of a group carries exactly the group's
timestamp (entries sharing a timestamp all land in that single record). -/
theorem claim_C1 (fns : List String) (srcs : List (List LogLine)) (inc : Bool)
    (hs : ∀ s ∈ labeledStreams fns srcs inc,
      List.Pairwise (fun a b => entryKey a ≤ entryKey b) s) :
    List.Pairwise (fun g1 g2 => g1.1 < g2.1) (mergedGroups fns srcs inc) ∧
    ∀ g ∈ mergedGroups fns srcs inc, ∀ e ∈ g.2, entryKey e = g.1 := by
  constructor
  · exact groupRuns_strict entryKey _
      (kMerge_pairwise entryKey _ _ hs)
  · exact groupRuns_entries entryKey _

/-- Witness for C1 on two concrete sorted sources sharing timestamp 5. -/
theorem claim_C1_witness :
    (∀ s ∈ labeledStreams ["a.log", "b.log"]
        [[(some 5, "x")], [(some 5, "y"), (some 7, "z")]] true,
      List.Pairwise (fun a b => entryKey a ≤ entryKey b) s) ∧
    List.Pairwise (fun g1 g2 => g1.1 < g2.1)
      (mergedGroups ["a.log", "b.log"]
        [[(some 5, "x")], [(some 5, "y"), (some 7, "z")]] true) :=
  ⟨by decide,
    (claim_C1 ["a.log", "b.log"] [[(some 5, "x")], [(some 5, "y"), (some 7, "z")]]
      true (by decide)).1⟩

/-- Collapsing with the default configuration maps each group to its
timestamp and newline-joined body. -/
theorem collapseGroups_keepAll_true (gs : List LineGroup) :
    collapseGroups keepAll true gs =
      gs.map (fun g => (g.1, String.intercalate "\n" (g.2.map Prod.snd))) := by
  induction gs with
  | nil => rfl
  | cons g rest ih =>
    cases g with
    | mk ts lines => simp [collapseGroups, keepAll, ih]

/-- The detector's first group carries the first line's tag. -/
theorem groupByDetector_head (dt : Option Timestamp) (s : String)
    (rest : List LogLine) (cur : Timestamp) :
    ∃ ys gs, groupByDetector cur ((dt, s) :: rest) = (dt.getD cur, ys) :: gs := by
  simp only [groupByDetector]
  cases groupByDetector (dt.getD cur) rest with
  | nil => exact ⟨[(dt, s)], [], rfl⟩
  | cons g0 gs =>
    cases g0 with
    | mk k2 ys =>
      by_cases hc : dt.getD cur = k2
      · refine ⟨(dt, s) :: ys, gs, ?_⟩
        show (if dt.getD cur = k2 then ((dt.getD cur), (dt, s) :: ys) :: gs
          else ((dt.getD cur), [(dt, s)]) :: (k2, ys) :: gs) = _
        rw [if_pos hc]
      · refine ⟨[(dt, s)], (k2, ys) :: gs, ?_⟩
        show (if dt.getD cur = k2 then ((dt.getD cur), (dt, s) :: ys) :: gs
          else ((dt.getD cur), [(dt, s)]) :: (k2, ys) :: gs) = _
        rw [if_neg hc]

/-- Every tag produced by the detector is either the incoming `_cur_dt` or a
parsed (hence positive) timestamp of the source. -/
theorem groupByDetector_keys (ls : List LogLine) (cur : Timestamp)
    (hpos : ∀ l ∈ ls, ∀ t, l.1 = some t → 0 < t) :
    ∀ g ∈ groupByDetector cur ls, g.1 = cur ∨ 0 < g.1 := by
  induction ls generalizing cur with
  | nil => simp [groupByDetector]
  | cons l rest ih =>
    cases l with
    | mk dt s =>
      intro g hg
      simp only [groupByDetector] at hg
      have hk : dt.getD cur = cur ∨ 0 < dt.getD cur := by
        cases dt with
        | none => exact Or.inl rfl
        | some t => exact Or.inr (hpos (some t, s) (by simp) t rfl)
      have hrec : ∀ g2 ∈ groupByDetector (dt.getD cur) rest,
          g2.1 = dt.getD cur ∨ 0 < g2.1 :=
        ih (dt.getD cur) (fun l2 hl2 t ht => hpos l2 (by simp [hl2]) t ht)
      cases hgr : groupByDetector (dt.getD cur) rest with
      | nil =>
        rw [hgr] at hg
        simp at hg
        rw [hg]
        exact hk
      | cons g0 gs =>
        cases g0 with
        | mk k2 ys =>
          rw [hgr] at hg
          have hg2 : g ∈ (if dt.getD cur = k2 then (((dt.getD cur), (dt, s) :: ys) :: gs)
              else (((dt.getD cur), [(dt, s)]) :: (k2, ys) :: gs)) := hg
          by_cases hc : dt.getD cur = k2
          · rw [if_pos hc] at hg2
            rcases List.mem_cons.mp hg2 with h1 | h1
            · rw [h1]; exact hk
            · rcases hrec g (by rw [hgr]; simp [h1]) with h2 | h2
              · rw [h2]; exact hk
              · exact Or.inr h2
          · rw [if_neg hc] at hg2
            rcases List.mem_cons.mp hg2 with h1 | h1
            · rw [h1]; exact hk
            · rcases hrec g (by rw [hgr]; exact h1) with h2 | h2
              · rw [h2]; exact hk
              · exact Or.inr h2

/-- On a source starting with untimestamped lines, the detector's first group
is the sentinel group: tag `datetime.min` and exactly the initial
untimestamped run; all later tags are positive. -/
theorem groupByDetector_none_run (ls : List LogLine) (b : String)
    (hpos : ∀ l ∈ (((none : Option Timestamp), b) :: ls), ∀ t, l.1 = some t → 0 < t) :
    ∃ gs2, groupByDetector 0 (((none : Option Timestamp), b) :: ls) =
        (0, ((none : Option Timestamp), b) ::
          ls.takeWhile (fun l => l.1.isNone)) :: gs2 ∧
      ∀ g ∈ gs2, 0 < g.1 := by
  induction ls generalizing b with
  | nil => exact ⟨[], rfl, by simp⟩
  | cons l rest ih =>
    cases l with
    | mk dt2 s2 =>
      cases dt2 with
      | none =>
        obtain ⟨gs2, hrec, hgs2⟩ := ih s2
          (fun l2 hl2 t ht => hpos l2 (by
            rcases List.mem_cons.mp hl2 with h1 | h1
            · simp [h1]
            · simp [h1]) t ht)
        refine ⟨gs2, ?_, hgs2⟩
        show (match groupByDetector 0 (((none : Option Timestamp), s2) :: rest) with
          | [] => [(0, [((none : Option Timestamp), b)])]
          | (k2, ys) :: gs =>
            if (0 : Timestamp) = k2 then (0, ((none : Option Timestamp), b) :: ys) :: gs
            else (0, [((none : Option Timestamp), b)]) :: (k2, ys) :: gs) = _
        rw [hrec]
        show (if (0 : Timestamp) = 0 then _ else _) = _
        rw [if_pos rfl]
        simp [List.takeWhile]
      | some t =>
        have ht : 0 < t := hpos (some t, s2) (by simp) t rfl
        obtain ⟨ys, gs, hh⟩ := groupByDetector_head (some t) s2 rest 0
        simp only [Option.getD_some] at hh
        have hkeys : ∀ g ∈ groupByDetector 0 ((some t, s2) :: rest), 0 < g.1 := by
          intro g hg
          simp only [groupByDetector, Option.getD_some] at hg
          have hrec2 : ∀ g2 ∈ groupByDetector t rest, g2.1 = t ∨ 0 < g2.1 :=
            groupByDetector_keys rest t
              (fun l2 hl2 t2 ht2 => hpos l2 (by simp [hl2]) t2 ht2)
          cases hgr : groupByDetector t rest with
          | nil =>
            rw [hgr] at hg
            simp at hg
            rw [hg]
            exact ht
          | cons g0 gs0 =>
            cases g0 with
            | mk k2 ys0 =>
              rw [hgr] at hg
              have hg2 : g ∈ (if t = k2 then ((t, (some t, s2) :: ys0) :: gs0)
                  else ((t, [((some t : Option Timestamp), s2)]) :: (k2, ys0) :: gs0)) := hg
              by_cases hc : t = k2
              · rw [if_pos hc] at hg2
                rcases List.mem_cons.mp hg2 with h1 | h1
                · rw [h1]; exact ht
                · rcases hrec2 g (by rw [hgr]; simp [h1]) with h2 | h2
                  · rw [h2]; exact ht
                  · exact h2
              · rw [if_neg hc] at hg2
                rcases List.mem_cons.mp hg2 with h1 | h1
                · rw [h1]; exact ht
                · rcases hrec2 g (by rw [hgr]; exact h1) with h2 | h2
                  · rw [h2]; exact ht
                  · exact h2
        refine ⟨groupByDetector 0 ((some t, s2) :: rest), ?_, hkeys⟩
        show (match groupByDetector 0 (((some t : Option Timestamp), s2) :: rest) with
          | [] => [(0, [((none : Option Timestamp), b)])]
          | (k2, ys) :: gs =>
            if (0 : Timestamp) = k2 then (0, ((none : Option Timestamp), b) :: ys) :: gs
            else (0, [((none : Option Timestamp), b)]) :: (k2, ys) :: gs) = _
        rw [hh]
        show (if (0 : Timestamp) = t then _ else _) = _
        rw [if_neg (Nat.ne_of_lt ht)]
        rw [← hh]
        simp [List.takeWhile]

/-- Inserting a sentinel-key group into any list prepends it. -/
theorem insSorted_zero (x : LineGroup) (l : List LineGroup) (hx : x.1 = 0) :
    insSorted x l = x :: l := by
  cases l with
  | nil => rfl
  | cons g gs =>
    simp only [insSorted, hx]
    rw [if_neg (Nat.not_lt_zero g.1)]

/-- Members of a stable insertion come from the inserted element or the
list. -/
theorem mem_insSorted (x y : LineGroup) (l : List LineGroup)
    (h : y ∈ insSorted x l) : y = x ∨ y ∈ l := by
  induction l with
  | nil => simp [insSorted] at h; exact Or.inl h
  | cons g gs ih =>
    simp only [insSorted] at h
    by_cases hc : g.1 < x.1
    · rw [if_pos hc] at h
      rcases List.mem_cons.mp h with h1 | h1
      · exact Or.inr (by simp [h1])
      · rcases ih h1 with h2 | h2
        · exact Or.inl h2
        · exact Or.inr (by simp [h2])
    · rw [if_neg hc] at h
      rcases List.mem_cons.mp h with h1 | h1
      · exact Or.inl h1
      · exact Or.inr h1

/-- Members of the stable sort come from the input. -/
theorem mem_sortGroups (y : LineGroup) (l : List LineGroup)
    (h : y ∈ sortGroups l) : y ∈ l := by
  induction l with
  | nil => simp [sortGroups] at h
  | cons x xs ih =>
    simp only [sortGroups] at h
    rcases mem_insSorted x y (sortGroups xs) h with h1 | h1
    · simp [h1]
    · simp [ih h1]

/-- Keys surviving adjacent fusion come from the accumulator or the list. -/
theorem mergeAdjAux_keys (g0 : LineGroup) (l : List LineGroup) :
    ∀ g ∈ mergeAdjAux g0 l, g.1 = g0.1 ∨ ∃ g2 ∈ l, g.1 = g2.1 := by
  induction l generalizing g0 with
  | nil =>
    intro g hg
    simp [mergeAdjAux] at hg
    simp [hg]
  | cons g2 gs ih =>
    intro g hg
    simp only [mergeAdjAux] at hg
    by_cases hc : g0.1 = g2.1
    · rw [if_pos hc] at hg
      rcases ih (g0.1, g0.2 ++ g2.2) g hg with h1 | ⟨g3, hg3, h1⟩
      · exact Or.inl h1
      · exact Or.inr ⟨g3, by simp [hg3], h1⟩
    · rw [if_neg hc] at hg
      rcases List.mem_cons.mp hg with h1 | h1
      · exact Or.inl (by rw [h1])
      · rcases ih g2 g h1 with h2 | ⟨g3, hg3, h2⟩
        · exact Or.inr ⟨g2, by simp, h2⟩
        · exact Or.inr ⟨g3, by simp [hg3], h2⟩

/-- Keys surviving adjacent fusion come from the input list. -/
theorem mergeAdjacent_keys (l : List LineGroup) :
    ∀ g ∈ mergeAdjacent l, ∃ g2 ∈ l, g.1 = g2.1 := by
  cases l with
  | nil => simp [mergeAdjacent]
  | cons g0 gs =>
    intro g hg
    rcases mergeAdjAux_keys g0 gs g hg with h1 | ⟨g3, hg3, h1⟩
    · exact ⟨g0, by simp, h1⟩
    · exact ⟨g3, by simp [hg3], h1⟩

/-- Fusing does not touch a sentinel-key accumulator followed by
positive-key groups. -/
theorem mergeAdjAux_zero (g0 : LineGroup) (l : List LineGroup)
    (h0 : g0.1 = 0) (hl : ∀ g ∈ l, 0 < g.1) :
    mergeAdjAux g0 l = g0 :: mergeAdjacent l := by
  cases l with
  | nil => rfl
  | cons g2 gs =>
    simp only [mergeAdjAux, mergeAdjacent]
    rw [if_neg (by rw [h0]; exact Nat.ne_of_lt (hl g2 (by simp)))]

/-- Keys after a buffer insert come from the inserted key or the buffer. -/
theorem wsInsert_keys (k : Timestamp) (items : List LogLine) (l : List LineGroup) :
    ∀ g ∈ wsInsert k items l, g.1 = k ∨ ∃ g2 ∈ l, g.1 = g2.1 := by
  induction l with
  | nil =>
    intro g hg
    simp [wsInsert] at hg
    simp [hg]
  | cons g2 gs ih =>
    intro g hg
    simp only [wsInsert] at hg
    by_cases hc1 : g2.1 < k
    · rw [if_pos hc1] at hg
      rcases List.mem_cons.mp hg with h1 | h1
      · exact Or.inr ⟨g2, by simp, by rw [h1]⟩
      · rcases ih g h1 with h2 | ⟨g3, hg3, h2⟩
        · exact Or.inl h2
        · exact Or.inr ⟨g3, by simp [hg3], h2⟩
    · rw [if_neg hc1] at hg
      by_cases hc2 : g2.1 = k
      · rw [if_pos hc2] at hg
        rcases List.mem_cons.mp hg with h1 | h1
        · exact Or.inl (by rw [h1]; exact hc2)
        · exact Or.inr ⟨g, by simp [h1], rfl⟩
      · rw [if_neg hc2] at hg
        rcases List.mem_cons.mp hg with h1 | h1
        · exact Or.inl (by rw [h1])
        · exact Or.inr ⟨g, by simp [h1], rfl⟩

/-- Inserting a positive key below a sentinel-key head keeps the head in
place. -/
theorem wsInsert_zero_head (k : Timestamp) (items : List LogLine)
    (z : LineGroup) (l : List LineGroup) (hz : z.1 = 0) (hk : 0 < k) :
    wsInsert k items (z :: l) = z :: wsInsert k items l := by
  simp only [wsInsert]
  rw [if_pos (by rw [hz]; exact hk)]

/-- Keys after a refill step come from the new group or the buffer. -/
theorem wsStep_keys (buf : List LineGroup) (last : Option Timestamp)
    (x : LineGroup) :
    ∀ g ∈ (wsStep buf last x).1, g.1 = x.1 ∨ ∃ g2 ∈ buf, g.1 = g2.1 := by
  intro g hg
  simp only [wsStep] at hg
  by_cases hc : x.1 ≤ last.getD x.1
  · rw [if_pos hc] at hg
    exact wsInsert_keys x.1 x.2 buf g hg
  · rw [if_neg hc] at hg
    simp only at hg
    rcases List.mem_append.mp hg with h1 | h1
    · exact Or.inr ⟨g, h1, rfl⟩
    · simp at h1
      exact Or.inl (by rw [h1])

/-- A refill step keeps a sentinel-key head in front when the incoming key is
positive. -/
theorem wsStep_zero_head (z : LineGroup) (B : List LineGroup)
    (last : Option Timestamp) (x : LineGroup) (hz : z.1 = 0) (hx : 0 < x.1) :
    ∃ B2 last2, wsStep (z :: B) last x = (z :: B2, last2) ∧
      ∀ g ∈ B2, g.1 = x.1 ∨ ∃ g2 ∈ B, g.1 = g2.1 := by
  simp only [wsStep]
  by_cases hc : x.1 ≤ last.getD x.1
  · rw [if_pos hc, wsInsert_zero_head x.1 x.2 z B hz hx]
    exact ⟨wsInsert x.1 x.2 B, some (last.getD x.1), rfl,
      wsInsert_keys x.1 x.2 B⟩
  · rw [if_neg hc]
    refine ⟨B ++ [x], some x.1, by simp, ?_⟩
    intro g hg
    rcases List.mem_append.mp hg with h1 | h1
    · exact Or.inr ⟨g, h1, rfl⟩
    · simp at h1
      exact Or.inl (by rw [h1])

/-- Keys emitted by the `WindowedSort` loop come from the buffer or the
remaining input. -/
theorem wsRun_keys (fuel : Nat) (buf : List LineGroup) (last : Option Timestamp)
    (rest : List LineGroup) (c : Bool) :
    ∀ g ∈ wsRun fuel buf last rest c,
      (∃ g2 ∈ buf, g.1 = g2.1) ∨ ∃ g2 ∈ rest, g.1 = g2.1 := by
  induction fuel generalizing buf last rest c with
  | zero => simp [wsRun]
  | succ f ih =>
    intro g hg
    cases rest with
    | nil =>
      cases buf with
      | nil => simp [wsRun] at hg
      | cons g0 bs =>
        rcases List.mem_cons.mp hg with h1 | h1
        · exact Or.inl ⟨g0, by simp, by rw [h1]⟩
        · rcases ih bs last [] c g h1 with ⟨g2, hg2, h2⟩ | ⟨g2, hg2, h2⟩
          · exact Or.inl ⟨g2, by simp [hg2], h2⟩
          · simp at hg2
    | cons x r =>
      cases c with
      | true =>
        cases buf with
        | nil => simp [wsRun] at hg
        | cons g0 bs =>
          have hg2 : g ∈ g0 :: wsRun f bs last (x :: r) true := hg
          rcases List.mem_cons.mp hg2 with h1 | h1
          · exact Or.inl ⟨g0, by simp, by rw [h1]⟩
          · rcases ih bs last (x :: r) true g h1 with ⟨g2, hg2, h2⟩ | ⟨g2, hg2, h2⟩
            · exact Or.inl ⟨g2, by simp [hg2], h2⟩
            · exact Or.inr ⟨g2, hg2, h2⟩
      | false =>
        cases hst : wsStep buf last x with
        | mk buf2 last2 =>
          cases buf2 with
          | nil =>
            have : wsRun (f + 1) buf last (x :: r) false = [] := by
              cases buf with
              | nil => simp [wsRun, hst]
              | cons b0 bs0 => simp [wsRun, hst]
            rw [this] at hg
            simp at hg
          | cons g0 bs2 =>
            have heq : wsRun (f + 1) buf last (x :: r) false =
                g0 :: wsRun f bs2 last2 r false :=
              wsRun_cons_step f buf last x r g0 bs2 last2 hst
            rw [heq] at hg
            have hkeys : ∀ g3 ∈ g0 :: bs2, g3.1 = x.1 ∨ ∃ g2 ∈ buf, g3.1 = g2.1 := by
              intro g3 hg3
              have := wsStep_keys buf last x g3 (by rw [hst]; exact hg3)
              exact this
            rcases List.mem_cons.mp hg with h1 | h1
            · rcases hkeys g0 (by simp) with h2 | ⟨g2, hg2, h2⟩
              · exact Or.inr ⟨x, by simp, by rw [h1]; exact h2⟩
              · exact Or.inl ⟨g2, hg2, by rw [h1]; exact h2⟩
            · rcases ih bs2 last2 r false g h1 with ⟨g2, hg2, h2⟩ | ⟨g2, hg2, h2⟩
              · rcases hkeys g2 (by simp [hg2]) with h3 | ⟨g3, hg3, h3⟩
                · exact Or.inr ⟨x, by simp, by rw [h2]; exact h3⟩
                · exact Or.inl ⟨g3, hg3, by rw [h2]; exact h3⟩
              · exact Or.inr ⟨g2, by simp [hg2], h2⟩

/-- The sentinel-key head of the buffer is emitted first by the
`WindowedSort` loop, and everything after it carries keys from the
positive-key buffer tail and input. -/
theorem wsRun_zero_head (f : Nat) (z : LineGroup) (B : List LineGroup)
    (last : Option Timestamp) (rest : List LineGroup) (c : Bool)
    (hz : z.1 = 0) (hB : ∀ g ∈ B, 0 < g.1) (hrest : ∀ g ∈ rest, 0 < g.1) :
    ∃ tail, wsRun (f + 1) (z :: B) last rest c = z :: tail ∧
      ∀ g ∈ tail, 0 < g.1 := by
  cases rest with
  | nil =>
    refine ⟨wsRun f B last [] c, rfl, ?_⟩
    intro g hg
    rcases wsRun_keys f B last [] c g hg with ⟨g2, hg2, h2⟩ | ⟨g2, hg2, h2⟩
    · rw [h2]; exact hB g2 hg2
    · simp at hg2
  | cons x r =>
    cases c with
    | true =>
      refine ⟨wsRun f B last (x :: r) true, rfl, ?_⟩
      intro g hg
      rcases wsRun_keys f B last (x :: r) true g hg with ⟨g2, hg2, h2⟩ | ⟨g2, hg2, h2⟩
      · rw [h2]; exact hB g2 hg2
      · rw [h2]; exact hrest g2 hg2
    | false =>
      obtain ⟨B2, last2, hst, hB2⟩ :=
        wsStep_zero_head z B last x hz (hrest x (by simp))
      refine ⟨wsRun f B2 last2 r false, wsRun_cons_step f _ _ _ _ _ _ _ hst, ?_⟩
      intro g hg
      have hB2pos : ∀ g2 ∈ B2, 0 < g2.1 := by
        intro g2 hg2
        rcases hB2 g2 hg2 with h1 | ⟨g3, hg3, h1⟩
        · rw [h1]; exact hrest x (by simp)
        · rw [h1]; exact hB g3 hg3
      rcases wsRun_keys f B2 last2 r false g hg with ⟨g2, hg2, h2⟩ | ⟨g2, hg2, h2⟩
      · rw [h2]; exact hB2pos g2 hg2
      · rw [h2]; exact hrest g2 (by simp [hg2])

/-- On a stream of detector groups headed by the sentinel group and followed
by positive-key groups, `WindowedSort` emits the sentinel group first and
intact, and every later emission has a positive key. -/
theorem windowedSort_zero_head (w : Nat) (run : List LogLine)
    (gs2 : List LineGroup) (hgs2 : ∀ g ∈ gs2, 0 < g.1) :
    ∃ tail, windowedSort (w + 1) (((0 : Timestamp), run) :: gs2) =
        (0, run) :: tail ∧ ∀ g ∈ tail, 0 < g.1 := by
  simp only [windowedSort, List.take_succ_cons, List.drop_succ_cons]
  have htake : ∀ g ∈ gs2.take w, 0 < g.1 :=
    fun g hg => hgs2 g (List.take_subset w gs2 hg)
  have hdrop : ∀ g ∈ gs2.drop w, 0 < g.1 :=
    fun g hg => hgs2 g (List.drop_subset w gs2 hg)
  have hsorted : ∀ g ∈ sortGroups (gs2.take w), 0 < g.1 :=
    fun g hg => htake g (mem_sortGroups g _ hg)
  have hsort : sortGroups (((0 : Timestamp), run) :: gs2.take w) =
      (0, run) :: sortGroups (gs2.take w) := by
    simp only [sortGroups]
    exact insSorted_zero (0, run) _ rfl
  simp only [hsort]
  have hmerge : mergeAdjacent (((0 : Timestamp), run) :: sortGroups (gs2.take w)) =
      (0, run) :: mergeAdjacent (sortGroups (gs2.take w)) := by
    show mergeAdjAux ((0 : Timestamp), run) (sortGroups (gs2.take w)) = _
    exact mergeAdjAux_zero (0, run) _ rfl hsorted
  simp only [hmerge]
  have hmpos : ∀ g ∈ mergeAdjacent (sortGroups (gs2.take w)), 0 < g.1 := by
    intro g hg
    obtain ⟨g2, hg2, h2⟩ := mergeAdjacent_keys _ g hg
    rw [h2]; exact hsorted g2 hg2
  obtain ⟨fl, hfl⟩ : ∃ fl,
      ((((0 : Timestamp), run) :: mergeAdjacent (sortGroups (gs2.take w))).length +
        (gs2.drop w).length) = fl + 1 := by
    refine ⟨(mergeAdjacent (sortGroups (gs2.take w))).length + (gs2.drop w).length, ?_⟩
    simp [List.length_cons]
    omega
  simp only [hfl]
  exact wsRun_zero_head fl (0, run) _ _ _ _ rfl hmpos hdrop

/-- Every key emitted by `WindowedSort` is a key of the input. -/
theorem windowedSort_keys (w : Nat) (gs : List LineGroup) :
    ∀ g ∈ windowedSort w gs, ∃ g2 ∈ gs, g.1 = g2.1 := by
  intro g hg
  simp only [windowedSort] at hg
  rcases wsRun_keys _ _ _ _ _ g hg with ⟨g2, hg2, h2⟩ | ⟨g2, hg2, h2⟩
  · obtain ⟨g3, hg3, h3⟩ := mergeAdjacent_keys _ g2 hg2
    have hg4 := mem_sortGroups g3 _ hg3
    exact ⟨g3, List.take_subset w gs hg4, by rw [h2, h3]⟩
  · exact ⟨g2, List.drop_subset w gs hg2, h2⟩

/-- `zeroHeads` skips an exhausted stream. -/
theorem zeroHeads_cons_nil (rest : List (List LabeledEntry)) :
    zeroHeads ([] :: rest) = zeroHeads rest := rfl

/-- `zeroHeads` collects a sentinel-key head. -/
theorem zeroHeads_cons_zero (x : LabeledEntry) (xs : List LabeledEntry)
    (rest : List (List LabeledEntry)) (hx : entryKey x = 0) :
    zeroHeads ((x :: xs) :: rest) = x :: zeroHeads rest := by
  simp [zeroHeads, List.filterMap_cons, hx]

/-- `zeroHeads` skips a stream whose head has a positive key. -/
theorem zeroHeads_cons_pos (x : LabeledEntry) (xs : List LabeledEntry)
    (rest : List (List LabeledEntry)) (hx : entryKey x ≠ 0) :
    zeroHeads ((x :: xs) :: rest) = zeroHeads rest := by
  simp [zeroHeads, List.filterMap_cons, hx]

/-- Every entry collected by `zeroHeads` carries the sentinel key. -/
theorem zeroHeads_key (seqs : List (List LabeledEntry)) :
    ∀ z ∈ zeroHeads seqs, entryKey z = 0 := by
  intro z hz
  simp only [zeroHeads, List.mem_filterMap] at hz
  obtain ⟨s, hs, hf⟩ := hz
  cases s with
  | nil => simp at hf
  | cons e t =>
    by_cases h : entryKey e = 0
    · simp only [h, if_pos] at hf
      rw [← Option.some.inj hf]
      exact h
    · simp [h] at hf

/-- Streams with no elements at all are all empty. -/
theorem totalLen_zero (seqs : List (List LabeledEntry)) (h : totalLen seqs = 0) :
    ∀ s ∈ seqs, s = [] := by
  induction seqs with
  | nil => simp
  | cons a rest ih =>
    simp only [totalLen, List.map_cons, List.sum_cons] at h
    intro s hs
    rcases List.mem_cons.mp hs with h1 | h1
    · rw [h1]
      exact List.length_eq_zero.mp (by omega)
    · exact ih (by simp only [totalLen]; omega) s h1

/-- `zeroHeads` of all-empty streams is empty. -/
theorem zeroHeads_all_nil (seqs : List (List LabeledEntry))
    (h : ∀ s ∈ seqs, s = []) : zeroHeads seqs = [] := by
  induction seqs with
  | nil => rfl
  | cons a rest ih =>
    rw [h a (List.mem_cons_self _ _), zeroHeads_cons_nil]
    exact ih (fun s hs => h s (List.mem_cons_of_mem _ hs))

/-- If no stream has a sentinel-key head, every remaining entry of every
well-shaped stream has a positive key. -/
theorem zeroHeads_nil_pos (seqs : List (List LabeledEntry))
    (hok : ∀ s ∈ seqs, OkStream s) (hz : zeroHeads seqs = []) :
    ∀ s ∈ seqs, ∀ e ∈ s, 0 < entryKey e := by
  induction seqs with
  | nil => simp
  | cons a rest ih =>
    cases a with
    | nil =>
      rw [zeroHeads_cons_nil] at hz
      intro s hs e he
      rcases List.mem_cons.mp hs with h1 | h1
      · rw [h1] at he; simp at he
      · exact ih (fun s2 hs2 => hok s2 (List.mem_cons_of_mem _ hs2)) hz s h1 e he
    | cons x xs =>
      by_cases hx : entryKey x = 0
      · rw [zeroHeads_cons_zero x xs rest hx] at hz
        simp at hz
      · rw [zeroHeads_cons_pos x xs rest hx] at hz
        intro s hs e he
        rcases List.mem_cons.mp hs with h1 | h1
        · have hos := hok (x :: xs) (List.mem_cons_self _ _)
          unfold OkStream at hos
          rcases hos with h2 | h2 | ⟨e2, t, he2, hk0, hposT⟩
          · exact absurd h2 (by simp)
          · rw [h1] at he; exact h2 e he
          · obtain ⟨hx1, -⟩ := List.cons.inj he2
            rw [← hx1] at hk0
            exact absurd hk0 hx
        · exact ih (fun s2 hs2 => hok s2 (List.mem_cons_of_mem _ hs2)) hz s h1 e he

/-- When every stream is well-shaped and some stream still carries a
sentinel-key head, the heap's selection step emits the first such head and
leaves the remaining streams well-shaped, shrinking the total size by one. -/
theorem pickMin_zero_first (seqs : List (List LabeledEntry)) (z : LabeledEntry)
    (zs : List LabeledEntry) (hok : ∀ s ∈ seqs, OkStream s)
    (hz : zeroHeads seqs = z :: zs) :
    ∃ seqs2, pickMin entryKey seqs = some (z, seqs2) ∧
      zeroHeads seqs2 = zs ∧ (∀ s ∈ seqs2, OkStream s) ∧
      totalLen seqs = totalLen seqs2 + 1 := by
  induction seqs generalizing z zs with
  | nil => simp [zeroHeads] at hz
  | cons a rest ih =>
    cases a with
    | nil =>
      rw [zeroHeads_cons_nil] at hz
      obtain ⟨rest2, hpm, hzh, hok2, hlen⟩ :=
        ih z zs (fun s hs => hok s (List.mem_cons_of_mem _ hs)) hz
      refine ⟨[] :: rest2, ?_, ?_, ?_, ?_⟩
      · simp only [pickMin, hpm]
      · rw [zeroHeads_cons_nil]; exact hzh
      · intro s hs
        rcases List.mem_cons.mp hs with h1 | h1
        · rw [h1]; exact Or.inl rfl
        · exact hok2 s h1
      · simp only [totalLen, List.map_cons, List.sum_cons] at hlen ⊢
        omega
    | cons x xs =>
      have hos := hok (x :: xs) (List.mem_cons_self _ _)
      unfold OkStream at hos
      rcases hos with h2 | h2 | ⟨e2, t, he2, hk0, hposT⟩
      · exact absurd h2 (by simp)
      · have hxpos : 0 < entryKey x := h2 x (List.mem_cons_self _ _)
        have hxne : entryKey x ≠ 0 := (Nat.ne_of_lt hxpos).symm
        rw [zeroHeads_cons_pos x xs rest hxne] at hz
        obtain ⟨rest2, hpm, hzh, hok2, hlen⟩ :=
          ih z zs (fun s hs => hok s (List.mem_cons_of_mem _ hs)) hz
        have hzk : entryKey z = 0 :=
          zeroHeads_key rest z (by rw [hz]; exact List.mem_cons_self _ _)
        have hlt : entryKey z < entryKey x := by rw [hzk]; exact hxpos
        refine ⟨(x :: xs) :: rest2, ?_, ?_, ?_, ?_⟩
        · show (match pickMin entryKey rest with
            | none => some (x, xs :: rest)
            | some (y, r2) =>
              if entryKey y < entryKey x then some (y, (x :: xs) :: r2)
              else some (x, xs :: rest)) = some (z, (x :: xs) :: rest2)
          rw [hpm]
          show (if entryKey z < entryKey x then some (z, (x :: xs) :: rest2)
            else some (x, xs :: rest)) = some (z, (x :: xs) :: rest2)
          rw [if_pos hlt]
        · rw [zeroHeads_cons_pos x xs rest2 hxne]; exact hzh
        · intro s hs
          rcases List.mem_cons.mp hs with h1 | h1
          · rw [h1]; exact Or.inr (Or.inl h2)
          · exact hok2 s h1
        · simp only [totalLen, List.map_cons, List.sum_cons] at hlen ⊢
          omega
      · obtain ⟨hx1, hx2⟩ := List.cons.inj he2
        have hx0 : entryKey x = 0 := by rw [hx1]; exact hk0
        rw [zeroHeads_cons_zero x xs rest hx0] at hz
        obtain ⟨hz1, hz2⟩ := List.cons.inj hz
        have hpick : pickMin entryKey ((x :: xs) :: rest) = some (x, xs :: rest) := by
          show (match pickMin entryKey rest with
            | none => some (x, xs :: rest)
            | some (y, r2) =>
              if entryKey y < entryKey x then some (y, (x :: xs) :: r2)
              else some (x, xs :: rest)) = some (x, xs :: rest)
          cases hpm : pickMin entryKey rest with
          | none => rfl
          | some p =>
            cases p with
            | mk y r2 =>
              show (if entryKey y < entryKey x then some (y, (x :: xs) :: r2)
                else some (x, xs :: rest)) = some (x, xs :: rest)
              rw [if_neg (by rw [hx0]; exact Nat.not_lt_zero _)]
        have hxspos : ∀ e ∈ xs, 0 < entryKey e := by
          intro e he
          rw [hx2] at he
          exact hposT e he
        have hzh2 : zeroHeads (xs :: rest) = zeroHeads rest := by
          cases xs with
          | nil => exact zeroHeads_cons_nil rest
          | cons x2 xs2 =>
            exact zeroHeads_cons_pos x2 xs2 rest
              ((Nat.ne_of_lt (hxspos x2 (List.mem_cons_self _ _))).symm)
        refine ⟨xs :: rest, ?_, ?_, ?_, ?_⟩
        · rw [← hz1]; exact hpick
        · rw [hzh2]; exact hz2
        · intro s hs
          rcases List.mem_cons.mp hs with h1 | h1
          · rw [h1]; exact Or.inr (Or.inl hxspos)
          · exact hok s (List.mem_cons_of_mem _ h1)
        · simp only [totalLen, List.map_cons, List.sum_cons, List.length_cons]
          omega

/-- With enough fuel, the heap merge over well-shaped streams emits exactly
the sentinel-key heads first and then only positive-key entries. -/
theorem kMerge_zero_first (fuel : Nat) (seqs : List (List LabeledEntry))
    (hfuel : totalLen seqs ≤ fuel) (hok : ∀ s ∈ seqs, OkStream s) :
    ∃ r, kMerge entryKey fuel seqs = zeroHeads seqs ++ r ∧
      ∀ e ∈ r, 0 < entryKey e := by
  induction fuel generalizing seqs with
  | zero =>
    have hnil : ∀ s ∈ seqs, s = [] := totalLen_zero seqs (Nat.le_zero.mp hfuel)
    refine ⟨[], ?_, by simp⟩
    rw [zeroHeads_all_nil seqs hnil]
    rfl
  | succ f ih =>
    cases hz : zeroHeads seqs with
    | nil =>
      refine ⟨kMerge entryKey (f + 1) seqs, by simp [hz], ?_⟩
      intro e he
      obtain ⟨s, hs, hes⟩ := kMerge_mem entryKey (f + 1) seqs e he
      exact zeroHeads_nil_pos seqs hok hz s hs e hes
    | cons z zs =>
      obtain ⟨seqs2, hpm, hzh, hok2, hlen⟩ := pickMin_zero_first seqs z zs hok hz
      obtain ⟨r, hkm, hr⟩ := ih seqs2 (by omega) hok2
      refine ⟨r, ?_, hr⟩
      simp only [kMerge]
      rw [hpm]
      show z :: kMerge entryKey f seqs2 = (z :: zs) ++ r
      rw [hkm, hzh, List.cons_append]

/-- Grouping a nonempty all-sentinel run followed by positive-key entries
yields the sentinel group followed by the grouping of the rest. -/
theorem groupRuns_zero_run (run : List LabeledEntry) (rest : List LabeledEntry)
    (hne : run ≠ []) (h0 : ∀ e ∈ run, entryKey e = 0)
    (hrest : ∀ e ∈ rest, 0 < entryKey e) :
    groupRuns entryKey (run ++ rest) =
      ((0 : Timestamp), run) :: groupRuns entryKey rest := by
  induction run with
  | nil => simp at hne
  | cons x xs ih =>
    have hx0 : entryKey x = 0 := h0 x (List.mem_cons_self _ _)
    cases xs with
    | nil =>
      cases rest with
      | nil =>
        show [(entryKey x, [x])] = [((0 : Timestamp), [x])]
        rw [hx0]
      | cons y ys =>
        obtain ⟨ys2, gs2, hh⟩ := groupRuns_head entryKey y ys
        have hne2 : entryKey x ≠ entryKey y := by
          rw [hx0]; exact Nat.ne_of_lt (hrest y (List.mem_cons_self _ _))
        show (match groupRuns entryKey (y :: ys) with
          | [] => [(entryKey x, [x])]
          | (k, ys0) :: gs =>
            if entryKey x = k then (k, x :: ys0) :: gs
            else (entryKey x, [x]) :: (k, ys0) :: gs) =
          ((0 : Timestamp), [x]) :: groupRuns entryKey (y :: ys)
        rw [hh]
        show (if entryKey x = entryKey y then (entryKey y, x :: ys2) :: gs2
          else (entryKey x, [x]) :: (entryKey y, ys2) :: gs2) =
          ((0 : Timestamp), [x]) :: (entryKey y, ys2) :: gs2
        rw [if_neg hne2, hx0]
    | cons x2 xs2 =>
      have hih := ih (by simp) (fun e he => h0 e (List.mem_cons_of_mem x he))
      show (match groupRuns entryKey ((x2 :: xs2) ++ rest) with
        | [] => [(entryKey x, [x])]
        | (k, ys0) :: gs =>
          if entryKey x = k then (k, x :: ys0) :: gs
          else (entryKey x, [x]) :: (k, ys0) :: gs) =
        ((0 : Timestamp), x :: x2 :: xs2) :: groupRuns entryKey rest
      rw [hih]
      show (if entryKey x = 0 then
          ((0 : Timestamp), x :: x2 :: xs2) :: groupRuns entryKey rest
        else (entryKey x, [x]) ::
          ((0 : Timestamp), x2 :: xs2) :: groupRuns entryKey rest) =
        ((0 : Timestamp), x :: x2 :: xs2) :: groupRuns entryKey rest
      rw [if_pos hx0]

/-- On a source whose first line is timestamped, every detector tag is a
parsed timestamp, hence positive. -/
theorem groupByDetector_some_pos (t : Timestamp) (s : String)
    (rest : List LogLine) (ht : 0 < t)
    (hpos : ∀ l ∈ rest, ∀ t2, l.1 = some t2 → 0 < t2) :
    ∀ g ∈ groupByDetector 0 (((some t : Option Timestamp), s) :: rest), 0 < g.1 := by
  intro g hg
  simp only [groupByDetector, Option.getD_some] at hg
  have hrec2 : ∀ g2 ∈ groupByDetector t rest, g2.1 = t ∨ 0 < g2.1 :=
    groupByDetector_keys rest t hpos
  cases hgr : groupByDetector t rest with
  | nil =>
    rw [hgr] at hg
    simp at hg
    rw [hg]
    exact ht
  | cons g0 gs0 =>
    cases g0 with
    | mk k2 ys0 =>
      rw [hgr] at hg
      have hg2 : g ∈ (if t = k2 then ((t, ((some t : Option Timestamp), s) :: ys0) :: gs0)
          else ((t, [((some t : Option Timestamp), s)]) :: (k2, ys0) :: gs0)) := hg
      by_cases hc : t = k2
      · rw [if_pos hc] at hg2
        rcases List.mem_cons.mp hg2 with h1 | h1
        · rw [h1]; exact ht
        · rcases hrec2 g (by rw [hgr]; exact List.mem_cons_of_mem _ h1) with h2 | h2
          · rw [h2]; exact ht
          · exact h2
      · rw [if_neg hc] at hg2
        rcases List.mem_cons.mp hg2 with h1 | h1
        · rw [h1]; exact ht
        · rcases hrec2 g (by rw [hgr]; exact h1) with h2 | h2
          · rw [h2]; exact ht
          · exact h2

/-- A source opening with an untimestamped line collapses to the sentinel
entry — key `datetime.min`, body the joined initial untimestamped run —
followed only by positive-key entries. -/
theorem collapser_zero_head (b : String) (rest : List LogLine)
    (hpos : PosSrc (((none : Option Timestamp), b) :: rest)) :
    ∃ tail, multilineLogCollapser keepAll true (((none : Option Timestamp), b) :: rest) =
        ((0 : Timestamp),
          sentinelBody (((none : Option Timestamp), b) :: rest)) :: tail ∧
      ∀ e ∈ tail, 0 < e.1 := by
  obtain ⟨gs2, hgbd, hgs2⟩ := groupByDetector_none_run rest b hpos
  obtain ⟨tail, hws, htail⟩ := windowedSort_zero_head 39
    (((none : Option Timestamp), b) :: rest.takeWhile (fun l => l.1.isNone)) gs2 hgs2
  rw [show (39 : Nat) + 1 = 40 from rfl] at hws
  refine ⟨tail.map (fun g => (g.1, String.intercalate "\n" (g.2.map Prod.snd))), ?_, ?_⟩
  · show collapseGroups keepAll true (windowedSort 40
      (groupByDetector 0 (((none : Option Timestamp), b) :: rest))) = _
    rw [hgbd, hws, collapseGroups_keepAll_true]
    rfl
  · intro e he
    simp only [List.mem_map] at he
    obtain ⟨g, hg, hge⟩ := he
    rw [← hge]
    exact htail g hg

/-- Every labeled collapsed stream over a positively-timestamped source has
the shape required by the zero-first merge analysis. -/
theorem collapser_okStream (f : String) (src : List LogLine)
    (hpos : PosSrc src) :
    OkStream ((multilineLogCollapser keepAll true src).map (fun e => (f, e))) := by
  cases src with
  | nil => exact Or.inl rfl
  | cons l rest =>
    cases l with
    | mk dt s =>
      cases dt with
      | none =>
        obtain ⟨tail, hc, htail⟩ := collapser_zero_head s rest hpos
        refine Or.inr (Or.inr ⟨(f, ((0 : Timestamp),
            sentinelBody (((none : Option Timestamp), s) :: rest))),
          tail.map (fun e => (f, e)), ?_, rfl, ?_⟩)
        · rw [hc]; rfl
        · intro e2 he2
          simp only [List.mem_map] at he2
          obtain ⟨e3, he3, hee⟩ := he2
          rw [← hee]
          show 0 < e3.1
          exact htail e3 he3
      | some t =>
        refine Or.inr (Or.inl ?_)
        intro e he
        simp only [List.mem_map] at he
        obtain ⟨e2, he2, hee⟩ := he
        rw [← hee]
        show 0 < e2.1
        have he2b : e2 ∈ (windowedSort 40 (groupByDetector 0
            (((some t : Option Timestamp), s) :: rest))).map
            (fun g => (g.1, String.intercalate "\n" (g.2.map Prod.snd))) := by
          rw [← collapseGroups_keepAll_true]
          exact he2
        simp only [List.mem_map] at he2b
        obtain ⟨g, hg, hge⟩ := he2b
        obtain ⟨g2, hg2, hk⟩ := windowedSort_keys 40 _ g hg
        have ht : 0 < t := hpos ((some t : Option Timestamp), s)
          (List.mem_cons_self _ _) t rfl
        have hposr : ∀ l ∈ rest, ∀ t2, l.1 = some t2 → 0 < t2 :=
          fun l hl t2 ht2 => hpos l (List.mem_cons_of_mem _ hl) t2 ht2
        have hgpos : 0 < g2.1 := groupByDetector_some_pos t s rest ht hposr g2 hg2
        rw [← hge]
        show 0 < g.1
        rw [hk]
        exact hgpos

/-- Every sentinel-key head collected across the labeled streams carries the
label of one of the zipped file names. -/
theorem zeroHeads_labels (ps : List (String × List LogLine)) :
    ∀ z ∈ zeroHeads (ps.map (fun p =>
      (multilineLogCollapser keepAll true p.2).map (fun e => (p.1, e)))),
      z.1 ∈ ps.map Prod.fst := by
  induction ps with
  | nil => simp [zeroHeads]
  | cons p ps2 ih =>
    cases p with
    | mk pf psrc =>
      intro z hz
      simp only [List.map_cons] at hz ⊢
      cases hcp : multilineLogCollapser keepAll true psrc with
      | nil =>
        rw [hcp] at hz
        simp only [List.map_nil] at hz
        rw [zeroHeads_cons_nil] at hz
        exact List.mem_cons_of_mem _ (ih z hz)
      | cons c cs =>
        rw [hcp] at hz
        simp only [List.map_cons] at hz
        by_cases hk : entryKey (pf, c) = 0
        · rw [zeroHeads_cons_zero (pf, c) _ _ hk] at hz
          rcases List.mem_cons.mp hz with h1 | h1
          · rw [h1]; exact List.mem_cons_self _ _
          · exact List.mem_cons_of_mem _ (ih z h1)
        · rw [zeroHeads_cons_pos (pf, c) _ _ hk] at hz
          exact List.mem_cons_of_mem _ (ih z hz)

/-- A list of labeled entries none of which carries the label `f` has an
empty `f`-filter. -/
theorem filter_beq_nil (l : List LabeledEntry) (f : String)
    (h : ∀ z ∈ l, z.1 ≠ f) : l.filter (fun z => z.1 == f) = [] := by
  induction l with
  | nil => rfl
  | cons x xs ih =>
    rw [List.filter_cons_of_neg (by simpa using h x (List.mem_cons_self _ _))]
    exact ih (fun z hz => h z (List.mem_cons_of_mem _ hz))

/-- Among the sentinel-key heads of the labeled streams, exactly one carries
the label of a source opening with an untimestamped line (labels being
distinct), and it is that source's sentinel entry. -/
theorem zeroHeads_filter_label (ps : List (String × List LogLine)) (f b : String)
    (rest : List LogLine)
    (hmem : (f, ((none : Option Timestamp), b) :: rest) ∈ ps)
    (hnd : (ps.map Prod.fst).Nodup)
    (hpos : ∀ p ∈ ps, PosSrc p.2) :
    (zeroHeads (ps.map (fun p =>
        (multilineLogCollapser keepAll true p.2).map (fun e => (p.1, e))))).filter
      (fun z => z.1 == f) =
      [(f, ((0 : Timestamp),
        sentinelBody (((none : Option Timestamp), b) :: rest)))] := by
  induction ps with
  | nil => simp at hmem
  | cons p ps2 ih =>
    cases p with
    | mk pf psrc =>
      simp only [List.map_cons] at hnd ⊢
      rcases List.mem_cons.mp hmem with h1 | h1
      · obtain ⟨h1a, h1b⟩ := Prod.mk.inj h1
        subst h1a
        subst h1b
        obtain ⟨tail, hc, htail⟩ :=
          collapser_zero_head b rest (hpos _ (List.mem_cons_self _ _))
        rw [hc]
        simp only [List.map_cons]
        rw [zeroHeads_cons_zero (f, ((0 : Timestamp),
          sentinelBody (((none : Option Timestamp), b) :: rest))) _ _ rfl]
        rw [List.filter_cons_of_pos (by simp)]
        have hnil := filter_beq_nil (zeroHeads (ps2.map (fun p =>
          (multilineLogCollapser keepAll true p.2).map (fun e => (p.1, e))))) f ?_
        · rw [hnil]
        · intro z hz
          have hzl := zeroHeads_labels ps2 z hz
          intro hzf
          rw [hzf] at hzl
          exact (List.nodup_cons.mp hnd).1 hzl
      · have hf2 : f ∈ ps2.map Prod.fst := by
          have := List.mem_map_of_mem Prod.fst h1
          exact this
        have hne : pf ≠ f := by
          intro he
          rw [he] at hnd
          exact (List.nodup_cons.mp hnd).1 hf2
        have hrec := ih h1 (List.nodup_cons.mp hnd).2
          (fun p hp => hpos p (List.mem_cons_of_mem _ hp))
        cases hcp : multilineLogCollapser keepAll true psrc with
        | nil =>
          simp only [List.map_nil]
          rw [zeroHeads_cons_nil]
          exact hrec
        | cons c cs =>
          simp only [List.map_cons]
          by_cases hk : entryKey (pf, c) = 0
          · rw [zeroHeads_cons_zero (pf, c) _ _ hk]
            rw [List.filter_cons_of_neg (by simpa using hne)]
            exact hrec
          · rw [zeroHeads_cons_pos (pf, c) _ _ hk]
            exact hrec

/-- C6: for every source whose first line (and initial run of lines) lacks a
timestamp, those lines are grouped under the sentinel minimum timestamp
`datetime.min` and still emitted as an output record — never silently
dropped — with the record's formatted timestamp field equal to the empty
string and the source's column holding the joined untimestamped run.
(Stated for distinct file names, one per source, and sources whose parsed
timestamps exceed `datetime.min`.) -/
theorem claim_C6 (fns : List String) (srcs : List (List LogLine)) (f b : String)
    (rest : List LogLine)
    (hmem : (f, ((none : Option Timestamp), b) :: rest) ∈ fns.zip srcs)
    (hlen : fns.length = srcs.length)
    (hnd : fns.Nodup)
    (hpos : ∀ s ∈ srcs, PosSrc s) :
    ∃ rec ∈ mergeLogFileLines fns srcs true,
      rec.timestamp = "" ∧
      rec.col f = some (sentinelBody (((none : Option Timestamp), b) :: rest)) := by
  have hls : labeledStreams fns srcs true = (fns.zip srcs).map (fun p =>
      (multilineLogCollapser keepAll true p.2).map (fun e => (p.1, e))) := rfl
  have hndz : ((fns.zip srcs).map Prod.fst).Nodup := by
    rw [List.map_fst_zip fns srcs (by omega)]
    exact hnd
  have hposz : ∀ p ∈ fns.zip srcs, PosSrc p.2 := by
    intro p hp
    obtain ⟨pf, psrc⟩ := p
    exact hpos psrc (List.of_mem_zip hp).2
  have hfilter := zeroHeads_filter_label (fns.zip srcs) f b rest hmem hndz hposz
  rw [← hls] at hfilter
  have hok : ∀ s ∈ labeledStreams fns srcs true, OkStream s := by
    intro s hs
    have hs2 : s ∈ (fns.zip srcs).map (fun p =>
        (multilineLogCollapser keepAll true p.2).map (fun e => (p.1, e))) := hs
    obtain ⟨p, hp, hps⟩ := List.mem_map.mp hs2
    rw [← hps]
    exact collapser_okStream p.1 p.2 (hposz p hp)
  obtain ⟨r, hkm, hr⟩ := kMerge_zero_first (totalLen (labeledStreams fns srcs true))
    (labeledStreams fns srcs true) (Nat.le_refl _) hok
  have hzne : zeroHeads (labeledStreams fns srcs true) ≠ [] := by
    intro hnil
    rw [hnil] at hfilter
    simp at hfilter
  have hmg : mergedGroups fns srcs true =
      ((0 : Timestamp), zeroHeads (labeledStreams fns srcs true)) ::
        groupRuns entryKey r := by
    show groupRuns entryKey (heapMerge entryKey (labeledStreams fns srcs true)) = _
    rw [show heapMerge entryKey (labeledStreams fns srcs true) =
      zeroHeads (labeledStreams fns srcs true) ++ r from hkm]
    exact groupRuns_zero_run _ r hzne (zeroHeads_key _) hr
  refine ⟨buildRecord fns 0 (zeroHeads (labeledStreams fns srcs true)), ?_, ?_, ?_⟩
  · show buildRecord fns 0 (zeroHeads (labeledStreams fns srcs true)) ∈
      (mergedGroups fns srcs true).map (fun g => buildRecord fns g.1 g.2)
    rw [hmg]
    simp only [List.map_cons]
    exact List.mem_cons_self _ _
  · rfl
  · show lookupA ((zeroHeads (labeledStreams fns srcs true)).foldl
        (fun cols e => dictSet cols e.1 e.2.2) (fns.map (fun f2 => (f2, "")))) f =
      some (sentinelBody (((none : Option Timestamp), b) :: rest))
    rw [foldl_dictSet_lookup, hfilter]
    simp

/-- Concrete C6 instance: a one-source run whose only line has no timestamp
still yields a record with empty timestamp holding that line. -/
theorem claim_C6_witness :
    ("a", [((none : Option Timestamp), "hdr")]) ∈
        ["a"].zip [[((none : Option Timestamp), "hdr")]] ∧
    ∃ rec ∈ mergeLogFileLines ["a"] [[((none : Option Timestamp), "hdr")]] true,
      rec.timestamp = "" ∧
      rec.col "a" = some (sentinelBody [((none : Option Timestamp), "hdr")]) :=
  ⟨by simp,
    claim_C6 ["a"] [[((none : Option Timestamp), "hdr")]] "a" "hdr" []
      (by simp) rfl (by simp)
      (by
        intro s hs l hl t ht
        simp only [List.mem_singleton] at hs
        rw [hs] at hl
        simp only [List.mem_singleton] at hl
        rw [hl] at ht
        simp at ht)⟩
